/-
Verification of the constraint-solver core runtime
(src/constraint_solver/constraint_solver.cc): reversible trail,
block-compressed trail, propagation queue, search state machine and
monitor dispatch.  Each C++ component is shallowly embedded as an
executable Lean definition, and the spec's claims are settled as
theorems about those definitions.
-/
import Mathlib

namespace CpSolver

/-! ## Trail (struct Trail, addrval, Solver::InternalSaveValue, Trail::BacktrackTo)

The trail keeps, per primitive kind, a stack of `addrval` cells
`(address, old_value)`; `restore` writes `old_value` back to `address`
(constraint_solver.cc:439-447).  `Trail::BacktrackTo` pops each kind's
stack down to the index recorded in the marker, newest cell first,
invoking `restore` on every popped cell (constraint_solver.cc:677-767).

Addresses are modelled as naturals and all stored values as `Int`:
save/restore only copy values, so the embedding is representation
independent.  The per-kind stacks are modelled as Lean lists with the
most recent cell at the head; C2 below proves that the block-compressed
container implements exactly this list semantics.  -/

/-- The five save kinds of the trail: `rev_ints_`, `rev_int64s_`,
`rev_uint64s_`, `rev_ptrs_` (compressed trails) and the
`rev_bools_`/`rev_bool_value_` parallel lists. -/
inductive TrailKind
  | tInt
  | tInt64
  | tUint64
  | tPtr
  | tBool
  deriving DecidableEq, Repr

/-- Addresses of saved locations. -/
abbrev Addr := Nat

/-- Stored primitive values. -/
abbrev Val := Int

/-- The solver state seen by the trail: a memory per kind, and a
per-kind stack of `addrval` cells (head = most recently pushed). -/
structure TrailState where
  mem : TrailKind → Addr → Val
  cells : TrailKind → List (Addr × Val)

/-- Pointwise update of a single kind's memory. -/
def updAddr (f : Addr → Val) (a : Addr) (v : Val) : Addr → Val :=
  fun x => if x = a then v else f x

/-- Pointwise update of the full memory at one kind and address. -/
def updMem (m : TrailKind → Addr → Val) (k : TrailKind) (a : Addr) (v : Val) :
    TrailKind → Addr → Val :=
  fun k' => if k' = k then updAddr (m k) a v else m k'

/-- `Solver::InternalSaveValue(valptr)`: push `addrval(valptr)` — the
address together with its current value — onto the trail of kind `k`
(constraint_solver.cc:770-792). -/
def saveValue (k : TrailKind) (a : Addr) (s : TrailState) : TrailState :=
  { s with cells := fun k' =>
      if k' = k then (a, s.mem k a) :: s.cells k' else s.cells k' }

/-- A client mutation of a saved location (the `save(&field); field = v`
idiom of the source, e.g. `Solver::SaveAndSetValue`). -/
def writeValue (k : TrailKind) (a : Addr) (v : Val) (s : TrailState) : TrailState :=
  { s with mem := updMem s.mem k a v }

/-- One forward operation between the marker and the backtrack. -/
inductive TrailOp
  | save (k : TrailKind) (a : Addr)
  | write (k : TrailKind) (a : Addr) (v : Val)
  deriving DecidableEq, Repr

def execOp (s : TrailState) : TrailOp → TrailState
  | TrailOp.save k a => saveValue k a s
  | TrailOp.write k a v => writeValue k a v s

def execOps (ops : List TrailOp) (s : TrailState) : TrailState :=
  ops.foldl execOp s

/-- `StateMarker`: the snapshot of every trail size taken by
`Solver::PushState` (constraint_solver.cc:1542-1560). -/
def markOf (s : TrailState) : TrailKind → Nat :=
  fun k => (s.cells k).length

/-- Pop the given cells newest-first, invoking `addrval::restore`
(write the recorded old value back) on each: the inner loops of
`Trail::BacktrackTo` over one kind's memory. -/
def undoCells : List (Addr × Val) → (Addr → Val) → Addr → Val
  | [], f => f
  | c :: rest, f => undoCells rest (updAddr f c.1 c.2)

/-- `Trail::BacktrackTo(m)`: for every kind, pop cells in LIFO order
down to the size recorded in the marker, restoring each one
(constraint_solver.cc:677-767). -/
def backtrackTo (m : TrailKind → Nat) (s : TrailState) : TrailState :=
  { mem := fun k =>
      undoCells ((s.cells k).take ((s.cells k).length - m k)) (s.mem k),
    cells := fun k => (s.cells k).drop ((s.cells k).length - m k) }

/-- The save-before-write discipline of the source (`save old value
before write`, the only supported use of the trail): every `write` to a
location is preceded, since the marker, by a `save` of that location.
`saved` accumulates the locations saved so far. -/
def disciplinedFrom (saved : List (TrailKind × Addr)) : List TrailOp → Bool
  | [] => true
  | TrailOp.save k a :: rest => disciplinedFrom ((k, a) :: saved) rest
  | TrailOp.write k a _ :: rest =>
      decide ((k, a) ∈ saved) && disciplinedFrom saved rest

/-- A location is saved by one of the ops. -/
def savedBy (ops : List TrailOp) (k : TrailKind) (a : Addr) : Prop :=
  TrailOp.save k a ∈ ops

instance (ops : List TrailOp) (k : TrailKind) (a : Addr) :
    Decidable (savedBy ops k a) := by
  unfold savedBy; infer_instance

/-! ## CompressedTrail (constraint_solver.cc:528-645) with pluggable packer
(NoCompressionTrailPacker / ZlibTrailPacker, constraint_solver.cc:467-525)

`CompressedTrail<T>` keeps at most one hot block `data_` (live prefix
`[0, current_)`) and one warm block `buffer_`; older full blocks are
held packed on the `blocks_` linked list (head = most recently packed).
The packer is pluggable.  `NoCompressionTrailPacker` is a raw copy
(identity).  `ZlibTrailPacker` calls the external zlib library, which
is not part of this repository; the code relies only on
`uncompress (compress x) = x` (both `CHECK_EQ(Z_OK, result)`), so a
packer is modelled as any coder with that round-trip property, and the
identity coder gives the `NO_COMPRESSION` instance.

The hot array is modelled by its live prefix only (entries at and above
`current_` are never read: `Back` reads `data_[current_-1]` and
`PushBack` overwrites `data_[current_]`), with the newest cell at the
head of the list; `buffer_` is modelled by its content when
`buffer_used_` and by `[]` otherwise (a cleared `buffer_used_` makes
the array contents dead). -/

/-- A trail packer: `Pack`/`Unpack` with the round-trip property the
source relies on.  `NoCompressionTrailPacker` is the identity coder;
`ZlibTrailPacker` is modelled from the spec: zlib's
`uncompress ∘ compress = id` contract (its code is external to the
repository). -/
structure TrailPacker (V : Type) where
  pack : List V → List V
  unpack : List V → List V
  unpack_pack : ∀ b, unpack (pack b) = b

/-- `NoCompressionTrailPacker`: raw copy in, raw copy out. -/
def noCompressionPacker (V : Type) : TrailPacker V :=
  ⟨id, id, fun _ => rfl⟩

/-- A nontrivial invertible coder, standing in for `ZlibTrailPacker`
in concrete computations (any coder with the round-trip property). -/
def reversePacker (V : Type) : TrailPacker V :=
  ⟨List.reverse, List.reverse, fun b => List.reverse_reverse b⟩

/-- State of `CompressedTrail<T>`: `blocks` (packed, head = top),
`bufferUsed`/`buffer` (warm block), `data` = live prefix of the hot
block with the newest cell first (`data.length` is `current_`), and
the total `size_`. -/
structure CTrail (V : Type) where
  blockSize : Nat
  blocks : List (List V)
  bufferUsed : Bool
  buffer : List V
  data : List V
  size : Nat
  deriving DecidableEq, Repr

/-- A freshly constructed `CompressedTrail` (constraint_solver.cc:530-558). -/
def CTrail.init (V : Type) (blockSize : Nat) : CTrail V :=
  ⟨blockSize, [], false, [], [], 0⟩

/-- `CompressedTrail::PushBack` (constraint_solver.cc:585-601): on hot
block overflow, either pack the warm buffer onto the block list and
swap, or just swap and mark the buffer used; then store the new cell. -/
def CTrail.pushBack (P : TrailPacker V) (v : V) (t : CTrail V) : CTrail V :=
  if t.blockSize ≤ t.data.length then
    if t.bufferUsed then
      { t with blocks := P.pack t.buffer :: t.blocks,
               buffer := t.data, data := [v], size := t.size + 1 }
    else
      { t with buffer := t.data, bufferUsed := true,
               data := [v], size := t.size + 1 }
  else
    { t with data := v :: t.data, size := t.size + 1 }

/-- `CompressedTrail::PopBack` (constraint_solver.cc:568-584): drop the
newest cell; when the hot block empties, promote the warm buffer, or
else unpack the top packed block and release it. -/
def CTrail.popBack (P : TrailPacker V) (t : CTrail V) : CTrail V :=
  if t.size = 0 then t
  else
    let d := t.data.tail
    if d.length = 0 then
      if t.bufferUsed then
        { t with data := t.buffer, buffer := [], bufferUsed := false,
                 size := t.size - 1 }
      else
        match t.blocks with
        | [] => { t with data := d, size := t.size - 1 }
        | b :: rest =>
            { t with data := P.unpack b, blocks := rest, size := t.size - 1 }
    else
      { t with data := d, size := t.size - 1 }

/-- `CompressedTrail::Back` (constraint_solver.cc:563-567): the newest
cell, `data_[current_-1]`; `none` on an empty trail (the source
`DCHECK`s `current_ > 0`). -/
def CTrail.back? (t : CTrail V) : Option V :=
  t.data.head?

/-- The logical content of the compressed trail, newest first:
hot live prefix, then the warm buffer if used, then the packed blocks
unpacked, newest block first. -/
def CTrail.logical (P : TrailPacker V) (t : CTrail V) : List V :=
  t.data ++ (if t.bufferUsed then t.buffer else []) ++
    (t.blocks.map P.unpack).flatten

/-- Representation invariant of `CompressedTrail` (established by the
constructor and preserved by push/pop for a positive block size). -/
def CTrail.Inv (P : TrailPacker V) (t : CTrail V) : Prop :=
  t.data.length ≤ t.blockSize ∧
  (t.bufferUsed = true → t.buffer.length = t.blockSize) ∧
  (t.bufferUsed = false → t.buffer = []) ∧
  (∀ b ∈ t.blocks, ∃ orig, orig.length = t.blockSize ∧ b = P.pack orig) ∧
  t.size = (t.logical P).length ∧
  (t.data = [] → t.bufferUsed = false ∧ t.blocks = [])

/-- One observable step on a trail: push a value or pop. -/
inductive CTrailOp (V : Type)
  | push (v : V)
  | pop
  deriving DecidableEq, Repr

def CTrail.step (P : TrailPacker V) (t : CTrail V) : CTrailOp V → CTrail V
  | CTrailOp.push v => t.pushBack P v
  | CTrailOp.pop => t.popBack P

/-- Run a sequence of push/pop operations, observing `Back()` (when
legal) and `size()` after each step. -/
def CTrail.runTrace (P : TrailPacker V) (t : CTrail V) :
    List (CTrailOp V) → List (Option V × Nat)
  | [] => []
  | op :: rest =>
      ((t.step P op).back?, (t.step P op).size) ::
        (t.step P op).runTrace P rest

/-- The trail state after running a sequence of push/pop operations. -/
def CTrail.runFinal (P : TrailPacker V) (t : CTrail V) :
    List (CTrailOp V) → CTrail V
  | [] => t
  | op :: rest => (t.step P op).runFinal P rest

/-- Reference semantics: the trail as a plain stack (newest first). -/
def specStep (l : List V) : CTrailOp V → List V
  | CTrailOp.push v => v :: l
  | CTrailOp.pop => l.tail

def specTrace (l : List V) : List (CTrailOp V) → List (Option V × Nat)
  | [] => []
  | op :: rest =>
      let l' := specStep l op
      (l'.head?, l'.length) :: specTrace l' rest

/-! ## Queue (class Queue, constraint_solver.cc:227-378, and
FifoPriorityQueue, constraint_solver.cc:148-224)

The queue owns one FIFO container per demon priority, a 64-bit stamp
(initialised to 1 and only ever incremented: reaching the `uint64`
wrap would take 2^64 increments, so the counter is modelled as `Nat`),
a freeze level, the `in_process_` re-entry guard, the pending
constraint list `to_add_` with its `in_add_` guard, and the optional
on-failure action `clear_action_`.

Demons are identified by naturals.  A `DemonEnv` gives each demon its
fixed priority (`Demon::priority()`) and its `Run` effect, abstracted
to the list of demons it enqueues (demons interact with the queue only
through `Solver::Enqueue`; during `Process` the nested
`ProcessIfUnfrozen` is cut off by the `in_process_` guard, so such an
enqueue is exactly the stamp-guarded append modelled here).  Demon
stamps (`Demon::stamp_`) live in the queue state.

Each FIFO cell additionally carries the ghost sequence number
`nextTime` of its enqueue, used only to state the FIFO dispatch
property; it has no counterpart in the source and influences nothing. -/

/-- `Solver::DemonPriority`. -/
inductive DemonPriority
  | DELAYED_PRIORITY
  | VAR_PRIORITY
  | NORMAL_PRIORITY
  deriving DecidableEq, Repr

/-- Fixed data about demons: priority and the enqueues performed by
`Demon::Run`. -/
structure DemonEnv where
  prio : Nat → DemonPriority
  eff : Nat → List Nat

/-- The queue state.  `normalQ`/`varQ`/`delayedQ` are the three
`FifoPriorityQueue` containers (front of the list = front of the
queue), holding `(demon, ghost enqueue time)`.  `freeN`/`freeV`/`freeD`
count the cells on each container's free-list. -/
structure QueueState where
  normalQ : List (Nat × Nat)
  varQ : List (Nat × Nat)
  delayedQ : List (Nat × Nat)
  stamp : Nat
  freezeLevel : Nat
  inProcess : Bool
  inAdd : Bool
  toAdd : List Nat
  clearAction : Option Nat
  actionLog : List Nat
  freeN : Nat
  freeV : Nat
  freeD : Nat
  nextTime : Nat
  stamps : Nat → Nat

/-- The container of a given priority. -/
def QueueState.queueOf (s : QueueState) : DemonPriority → List (Nat × Nat)
  | DemonPriority.NORMAL_PRIORITY => s.normalQ
  | DemonPriority.VAR_PRIORITY => s.varQ
  | DemonPriority.DELAYED_PRIORITY => s.delayedQ

/-- Replace the container of a given priority. -/
def QueueState.setQueue (s : QueueState) :
    DemonPriority → List (Nat × Nat) → QueueState
  | DemonPriority.NORMAL_PRIORITY, l => { s with normalQ := l }
  | DemonPriority.VAR_PRIORITY, l => { s with varQ := l }
  | DemonPriority.DELAYED_PRIORITY, l => { s with delayedQ := l }

/-- `FifoPriorityQueue::Enqueue` recycles a free cell when one is
available, else allocates (constraint_solver.cc:191-207); only the
free-list length is observable here. -/
def QueueState.takeFreeCell (s : QueueState) : DemonPriority → QueueState
  | DemonPriority.NORMAL_PRIORITY => { s with freeN := s.freeN - 1 }
  | DemonPriority.VAR_PRIORITY => { s with freeV := s.freeV - 1 }
  | DemonPriority.DELAYED_PRIORITY => { s with freeD := s.freeD - 1 }

/-- `FifoPriorityQueue::NextDemon` returns the dequeued cell to the
free-list (constraint_solver.cc:175-189). -/
def QueueState.returnCell (s : QueueState) : DemonPriority → QueueState
  | DemonPriority.NORMAL_PRIORITY => { s with freeN := s.freeN + 1 }
  | DemonPriority.VAR_PRIORITY => { s with freeV := s.freeV + 1 }
  | DemonPriority.DELAYED_PRIORITY => { s with freeD := s.freeD + 1 }

/-- All pending demons, over the three containers. -/
def QueueState.pending (s : QueueState) : List Nat :=
  s.normalQ.map Prod.fst ++ s.varQ.map Prod.fst ++ s.delayedQ.map Prod.fst

/-- `Queue::Enqueue` without its trailing `ProcessIfUnfrozen`
(constraint_solver.cc:302-308): if `demon->stamp() < stamp_`, stamp the
demon with the queue stamp and append it to its priority's FIFO.  This
is the whole of `Enqueue` whenever the queue is frozen or `Process` is
already running. -/
def enqueueRaw (env : DemonEnv) (d : Nat) (s : QueueState) : QueueState :=
  if s.stamps d < s.stamp then
    let p := env.prio d
    let s1 := s.takeFreeCell p
    let s2 := s1.setQueue p (s1.queueOf p ++ [(d, s.nextTime)])
    { s2 with stamps := fun x => if x = d then s.stamp else s.stamps x,
              nextTime := s.nextTime + 1 }
  else s

/-- The priority that the nested loops of `Queue::Process`
(constraint_solver.cc:283-300) dispatch next: the innermost loop drains
NORMAL; the middle loop then pops one VAR while NORMAL or VAR is
non-empty; when both are empty the outer loop pops one DELAYED, and it
stops when all three are empty.  At every dispatch point this is the
first non-empty container in the order NORMAL, VAR, DELAYED. -/
def selectPriority (s : QueueState) : Option DemonPriority :=
  if s.normalQ ≠ [] then some DemonPriority.NORMAL_PRIORITY
  else if s.varQ ≠ [] then some DemonPriority.VAR_PRIORITY
  else if s.delayedQ ≠ [] then some DemonPriority.DELAYED_PRIORITY
  else none

/-- Record of one demon dispatch: the demon, its priority, the ghost
enqueue time of its cell, and the queue stamp and the three containers
as they were just before the dispatch. -/
structure DispatchEvent where
  demon : Nat
  prio : DemonPriority
  time : Nat
  stampAt : Nat
  qN : List (Nat × Nat)
  qV : List (Nat × Nat)
  qD : List (Nat × Nat)
  deriving DecidableEq, Repr

/-- The pre-dispatch container of the event's own priority. -/
def DispatchEvent.ownQueue (e : DispatchEvent) : List (Nat × Nat) :=
  match e.prio with
  | DemonPriority.NORMAL_PRIORITY => e.qN
  | DemonPriority.VAR_PRIORITY => e.qV
  | DemonPriority.DELAYED_PRIORITY => e.qD

/-- `Queue::ProcessOneDemon` on a non-empty container
(constraint_solver.cc:260-275): dequeue the front demon, return its
cell to the free-list, set `demon->stamp_ = stamp_ - 1`, and run it
(its run enqueues `env.eff d`). -/
def dispatchFront (env : DemonEnv) (p : DemonPriority) (d : Nat)
    (rest : List (Nat × Nat)) (s : QueueState) : QueueState :=
  let s1 := (s.setQueue p rest).returnCell p
  let s2 := { s1 with stamps := fun x => if x = d then s.stamp - 1 else s.stamps x }
  (env.eff d).foldl (fun st d' => enqueueRaw env d' st) s2

/-- The queue state after one more dispatch of the drain loop of
`Queue::Process` (fuel-indexed below: propagation need not terminate,
a demon may re-enqueue demons forever). -/
def processFinal (env : DemonEnv) : Nat → QueueState → QueueState
  | 0, s => s
  | fuel + 1, s =>
      match selectPriority s with
      | none => s
      | some p =>
          match s.queueOf p with
          | [] => s
          | (d, _) :: rest => processFinal env fuel (dispatchFront env p d rest s)

/-- The dispatch log of the drain loop of `Queue::Process`: one
`DispatchEvent` per dispatch, in dispatch order. -/
def processTrace (env : DemonEnv) : Nat → QueueState → List DispatchEvent
  | 0, _ => []
  | fuel + 1, s =>
      match selectPriority s with
      | none => []
      | some p =>
          match s.queueOf p with
          | [] => []
          | (d, t) :: rest =>
              (⟨d, p, t, s.stamp, s.normalQ, s.varQ, s.delayedQ⟩ : DispatchEvent) ::
                processTrace env fuel (dispatchFront env p d rest s)

/-- `Queue::Process` (constraint_solver.cc:283-300): re-entry guarded
drain; `in_process_` is set around the loop. -/
def process (env : DemonEnv) (fuel : Nat) (s : QueueState) : QueueState :=
  if s.inProcess then s
  else { processFinal env fuel { s with inProcess := true } with
         inProcess := false }

/-- `Queue::ProcessIfUnfrozen` (constraint_solver.cc:361-365). -/
def processIfUnfrozen (env : DemonEnv) (fuel : Nat) (s : QueueState) :
    QueueState :=
  if s.freezeLevel = 0 then process env fuel s else s

/-- `Queue::Freeze` (constraint_solver.cc:250-253): bump the freeze
level and the stamp. -/
def freeze (s : QueueState) : QueueState :=
  { s with freezeLevel := s.freezeLevel + 1, stamp := s.stamp + 1 }

/-- `Queue::Unfreeze` (constraint_solver.cc:255-258): drop the freeze
level and process if it reached zero.  (It does not touch the stamp.) -/
def unfreeze (env : DemonEnv) (fuel : Nat) (s : QueueState) : QueueState :=
  processIfUnfrozen env fuel { s with freezeLevel := s.freezeLevel - 1 }

/-- `Queue::Enqueue` including its `ProcessIfUnfrozen`
(constraint_solver.cc:302-308). -/
def enqueueTop (env : DemonEnv) (fuel : Nat) (d : Nat) (s : QueueState) :
    QueueState :=
  if s.stamps d < s.stamp then processIfUnfrozen env fuel (enqueueRaw env d s)
  else s

/-- `Queue::increase_stamp` (constraint_solver.cc:324-326). -/
def increaseStamp (s : QueueState) : QueueState :=
  { s with stamp := s.stamp + 1 }

/-- `Queue::AfterFailure` (constraint_solver.cc:310-322): every
container's cells go back to its free-list
(`FifoPriorityQueue::AfterFailure`, constraint_solver.cc:209-216); the
registered on-failure action, if any, is run and cleared; the freeze
level, `in_process_`, `in_add_` and `to_add_` are reset.  Running the
action is modelled by logging it. -/
def afterFailure (s : QueueState) : QueueState :=
  { s with
    normalQ := [], varQ := [], delayedQ := [],
    freeN := s.freeN + s.normalQ.length,
    freeV := s.freeV + s.varQ.length,
    freeD := s.freeD + s.delayedQ.length,
    actionLog := s.actionLog ++ s.clearAction.toList,
    clearAction := none,
    freezeLevel := 0, inProcess := false, inAdd := false, toAdd := [] }

/-- The queue-facing operations of the solver's lifetime, for stating
stamp monotonicity. -/
inductive QOp
  | freezeOp
  | unfreezeOp (fuel : Nat)
  | enqueueOp (d : Nat) (fuel : Nat)
  | processOp (fuel : Nat)
  | increaseStampOp
  | afterFailureOp
  deriving DecidableEq, Repr

def applyQOp (env : DemonEnv) (s : QueueState) : QOp → QueueState
  | QOp.freezeOp => freeze s
  | QOp.unfreezeOp fuel => unfreeze env fuel s
  | QOp.enqueueOp d fuel => enqueueTop env fuel d s
  | QOp.processOp fuel => process env fuel s
  | QOp.increaseStampOp => increaseStamp s
  | QOp.afterFailureOp => afterFailure s

def applyQOps (env : DemonEnv) (ops : List QOp) (s : QueueState) : QueueState :=
  ops.foldl (applyQOp env) s

/-! ## State markers and Solver::PushState / Solver::PopState
(constraint_solver.cc:380-430, 1542-1581)

A `StateMarker` snapshots every trail size, except that a
`REVERSIBLE_ACTION` marker with `int_info != 0` (the `fast` flag)
elides the snapshot; `PopState` correspondingly skips
`Trail::BacktrackTo` for such a marker.  Both `PushState` and
`PopState` end with `queue_->increase_stamp()`. -/

/-- `Solver::MarkerType`. -/
inductive MarkerType
  | SIMPLE_MARKER
  | CHOICE_POINT
  | SENTINEL
  | REVERSIBLE_ACTION
  deriving DecidableEq, Repr

/-- `StateInfo` (constraint_solver.cc:382-394); the `ptr_info` payload
is identified by a natural. -/
structure StateInfo where
  ptrInfo : Nat
  intInfo : Int
  depth : Int
  leftDepth : Int
  deriving DecidableEq, Repr

/-- `StateMarker` (constraint_solver.cc:396-430): type, trail-size
snapshot and info.  The constructor zero-initialises the indices, so an
elided snapshot is the all-zero function. -/
structure StateMarker where
  type : MarkerType
  snapshot : TrailKind → Nat
  info : StateInfo

/-- The solver-owned objects touched by `PushState`/`PopState`: the
trail, the active search's marker stack and the queue. -/
structure SolverCore where
  trail : TrailState
  markerStack : List StateMarker
  queue : QueueState

/-- `Solver::PushState(t, info)` (constraint_solver.cc:1542-1560):
snapshot the trail sizes unless the marker is a fast reversible action,
push the marker, and bump the queue stamp. -/
def pushState (t : MarkerType) (info : StateInfo) (s : SolverCore) : SolverCore :=
  let m : StateMarker :=
    if t ≠ MarkerType.REVERSIBLE_ACTION ∨ info.intInfo = 0 then
      ⟨t, markOf s.trail, info⟩
    else
      ⟨t, fun _ => 0, info⟩
  { s with markerStack := m :: s.markerStack,
           queue := increaseStamp s.queue }

/-- `Solver::PopState(info)` (constraint_solver.cc:1567-1581): `CHECK`s
the stack non-empty (modelled by `none`), backtracks the trail to the
marker unless it is a fast reversible action, pops it, and bumps the
queue stamp.  Returns the marker type and info. -/
def popState (s : SolverCore) : Option (MarkerType × StateInfo × SolverCore) :=
  match s.markerStack with
  | [] => none
  | m :: rest =>
      let trail' :=
        if m.type ≠ MarkerType.REVERSIBLE_ACTION ∨ m.info.intInfo = 0 then
          backtrackTo m.snapshot s.trail
        else s.trail
      some (m.type, m.info,
        { trail := trail', markerStack := rest,
          queue := increaseStamp s.queue })

/-! ## Top-level search state machine: Solver::NextSolution,
Solver::Solve, Solver::Fail, Search::JumpBack
(constraint_solver.cc:2117-2281, 1821-1830, 2465-2474, 988-996)

The claims below exercise only the top-level dispatch of
`NextSolution` (`solve_depth <= 1`), the failure path of initial
propagation, and the fail-outside-search path, none of which enters the
main `while (!finish)` search loop.  The model therefore keeps the
top-level `switch (state_)`, `ProcessConstraints`, `Solve` and `Fail`
concrete, and abstracts the body of the search loop as an arbitrary
function `loop` (and `BacktrackOneLevel` as `backtrackOne`): the
theorems hold for every instantiation, which is exactly the statement
that those paths never consult them.

Constraints are abstract; `failing c = true` models a constraint whose
posting/initial propagation fails.  `ProcessConstraints`
(constraint_solver.cc:1705-1765) posts every stored constraint and
fails iff one of them fails, which the model renders as
`constraints.any failing`. -/

/-- Sentinel magic codes (constraint_solver.cc:1350-1354). -/
def INITIAL_SEARCH_SENTINEL : Nat := 10000000

def ROOT_NODE_SENTINEL : Nat := 20000000

def SOLVER_CTOR_SENTINEL : Nat := 40000000

/-- The solver state enum (header; values printed in
`Solver::DebugString`, constraint_solver.cc:1475-1508). -/
inductive SolverState
  | OUTSIDE_SEARCH
  | IN_ROOT_NODE
  | IN_SEARCH
  | AT_SOLUTION
  | NO_MORE_SOLUTIONS
  | PROBLEM_INFEASIBLE
  deriving DecidableEq, Repr

/-- Observable search events, logged in source order. -/
inductive SEvent
  | beginInitialPropagation
  | endInitialPropagation
  | queueAfterFailure
  | backtrackToSentinel (code : Nat)
  | pushSentinel (code : Nat)
  | enterSearch
  | exitSearch
  | beginFail
  deriving DecidableEq, Repr

/-- The solver as seen by the top-level search machinery.  `Cstr` is
the abstract type of constraints; `constraints` is `constraints_list_`,
`queueToAdd` the in-search additions routed to `Queue::AddConstraint`,
and `additional` the root-node additions
(`Solver::AddConstraint`, constraint_solver.cc:1650-1668). -/
structure SolverSM (Cstr : Type) where
  state : SolverState
  constraints : List Cstr
  queueToAdd : List Cstr
  additional : List Cstr
  solutionCounter : Nat
  fails : Nat
  jmpbufFilled : Bool
  events : List SEvent

/-- Environment of the search machine: which constraints fail their
initial propagation, the false constraint, and the abstracted search
loop internals. -/
structure SearchEnv (Cstr : Type) where
  failing : Cstr → Bool
  /-- Modelled from the spec: `Solver::MakeFalseConstraint` (defined in
  constraints.cc, outside the provided sources) returns a constraint
  whose initial propagation always fails, so that "the next legitimate
  entry to `next_solution` reports infeasibility". -/
  falseConstraint : Cstr
  falseConstraintFails : failing falseConstraint = true
  /-- The body of `NextSolution`'s `while (!finish)` loop (apply /
  refute decisions, leaf handling), abstracted. -/
  loop : SolverSM Cstr → Bool × SolverSM Cstr
  /-- `Solver::BacktrackOneLevel`, abstracted; `true` means the tree is
  exhausted. -/
  backtrackOne : SolverSM Cstr → Bool × SolverSM Cstr

/-- Append an event to the log. -/
def SolverSM.log (s : SolverSM Cstr) (e : SEvent) : SolverSM Cstr :=
  { s with events := s.events ++ [e] }

/-- The `while (!finish)` part of `NextSolution` followed by the
top-level state update `state_ = result ? AT_SOLUTION :
NO_MORE_SOLUTIONS` (constraint_solver.cc:2171-2279). -/
def mainLoop (env : SearchEnv Cstr) (s : SolverSM Cstr) : Bool × SolverSM Cstr :=
  let (r, s1) := env.loop s
  (r, { s1 with state :=
          if r then SolverState.AT_SOLUTION else SolverState.NO_MORE_SOLUTIONS })

/-- `Solver::NextSolution` at top level (constraint_solver.cc:2117-2281).
States `PROBLEM_INFEASIBLE` and `NO_MORE_SOLUTIONS` return `false` at
once.  From `OUTSIDE_SEARCH` the solver enters the root node, runs
initial propagation, and on failure runs `queue_->AfterFailure()`,
backtracks to the `INITIAL_SEARCH_SENTINEL`, sets
`PROBLEM_INFEASIBLE` and returns `false`; on success it pushes the
`ROOT_NODE_SENTINEL`, enters `IN_SEARCH` and runs the search loop. -/
def nextSolution (env : SearchEnv Cstr) (s : SolverSM Cstr) :
    Bool × SolverSM Cstr :=
  match s.state with
  | SolverState.PROBLEM_INFEASIBLE => (false, s)
  | SolverState.NO_MORE_SOLUTIONS => (false, s)
  | SolverState.AT_SOLUTION =>
      let (noMore, s1) := env.backtrackOne s
      if noMore then (false, { s1 with state := SolverState.NO_MORE_SOLUTIONS })
      else mainLoop env { s1 with state := SolverState.IN_SEARCH }
  | SolverState.OUTSIDE_SEARCH =>
      let s1 := { s with state := SolverState.IN_ROOT_NODE }.log
        SEvent.beginInitialPropagation
      if s1.constraints.any env.failing then
        (false,
          { ((s1.log SEvent.queueAfterFailure).log
              (SEvent.backtrackToSentinel INITIAL_SEARCH_SENTINEL)) with
            state := SolverState.PROBLEM_INFEASIBLE })
      else
        mainLoop env
          { ((s1.log SEvent.endInitialPropagation).log
              (SEvent.pushSentinel ROOT_NODE_SENTINEL)) with
            state := SolverState.IN_SEARCH }
  | SolverState.IN_SEARCH => mainLoop env s
  | SolverState.IN_ROOT_NODE => (false, s)

/-- `Solver::NewSearch` (constraint_solver.cc:1883-1942): backtrack to
the initial-search sentinel, go to `OUTSIDE_SEARCH`, enter the search
(`Search::EnterSearch` resets the solution counter,
constraint_solver.cc:1095-1106), and push a fresh sentinel.  (Calling
it in state `IN_SEARCH` or `IN_ROOT_NODE` is a fatal error in the
source; the theorems assume the legal states.) -/
def newSearch (s : SolverSM Cstr) : SolverSM Cstr :=
  { (((s.log (SEvent.backtrackToSentinel INITIAL_SEARCH_SENTINEL)).log
      SEvent.enterSearch).log (SEvent.pushSentinel INITIAL_SEARCH_SENTINEL)) with
    state := SolverState.OUTSIDE_SEARCH,
    solutionCounter := 0 }

/-- `Solver::EndSearch` (constraint_solver.cc:2283-2294). -/
def endSearch (s : SolverSM Cstr) : SolverSM Cstr :=
  { ((s.log (SEvent.backtrackToSentinel INITIAL_SEARCH_SENTINEL)).log
      SEvent.exitSearch) with
    state := SolverState.OUTSIDE_SEARCH }

/-- `Solver::Solve` (constraint_solver.cc:1821-1830): `NewSearch`, one
`NextSolution`, report whether the solution counter is positive,
`EndSearch`. -/
def solve (env : SearchEnv Cstr) (s : SolverSM Cstr) : Bool × SolverSM Cstr :=
  let s1 := newSearch s
  let (_, s2) := nextSolution env s1
  let found := decide (0 < s2.solutionCounter)
  (found, endSearch s2)

/-- `Solver::AddConstraint` (constraint_solver.cc:1650-1668): routed to
the queue while `IN_SEARCH`, to the additional list while
`IN_ROOT_NODE`, and to the model's constraint list otherwise. -/
def addConstraint (c : Cstr) (s : SolverSM Cstr) : SolverSM Cstr :=
  match s.state with
  | SolverState.IN_SEARCH => { s with queueToAdd := s.queueToAdd ++ [c] }
  | SolverState.IN_ROOT_NODE => { s with additional := s.additional ++ [c] }
  | _ => { s with constraints := s.constraints ++ [c] }

/-- Outcome of `Solver::Fail`: a non-local jump to the armed
continuation, or a plain return (no continuation was armed — the
degraded-but-safe path). -/
inductive FailOutcome
  | jumped
  | returnedSafely
  deriving DecidableEq, Repr

/-- `Solver::Fail` without an installed `fail_intercept_`
(constraint_solver.cc:2465-2474) followed by `Search::JumpBack`
(constraint_solver.cc:988-996): count the failure, notify `BeginFail`,
then `longjmp` if the buffer is armed, otherwise post
`MakeFalseConstraint` to the current problem and return normally. -/
def fail (env : SearchEnv Cstr) (s : SolverSM Cstr) :
    FailOutcome × SolverSM Cstr :=
  let s1 := { s with fails := s.fails + 1 }.log SEvent.beginFail
  if s1.jmpbufFilled then
    (FailOutcome.jumped, { s1 with jmpbufFilled := false })
  else
    (FailOutcome.returnedSafely, addConstraint env.falseConstraint s1)

/-! ## Monitor dispatch: Search::AcceptSolution and Search::AtSolution
(constraint_solver.cc:1201-1229)

Both walk the whole `monitors_` vector in registration order; neither
returns early.  `AcceptSolution` accumulates a conjunction,
`AtSolution` a disjunction.  A monitor is modelled by an identifier and
its two boolean answers; calling it is modelled by logging its
identifier. -/

/-- A registered `SearchMonitor`, reduced to its identifier and its
answers to `AcceptSolution()` and `AtSolution()`. -/
structure MonitorR where
  ident : Nat
  acceptAns : Bool
  atAns : Bool
  deriving DecidableEq, Repr

/-- `Search::AcceptSolution` (constraint_solver.cc:1201-1214):
`valid = true; for each monitor: if (!m->AcceptSolution()) valid =
false;` — every monitor is consulted.  Returns the call log and the
result. -/
def acceptSolutionRun (ms : List MonitorR) : List Nat × Bool :=
  ms.foldl
    (fun acc m => (acc.1 ++ [m.ident], if !m.acceptAns then false else acc.2))
    ([], true)

/-- `Search::AtSolution` (constraint_solver.cc:1216-1229):
`should_continue = false; for each monitor: if (m->AtSolution())
should_continue = true;`. -/
def atSolutionRun (ms : List MonitorR) : List Nat × Bool :=
  ms.foldl
    (fun acc m => (acc.1 ++ [m.ident], if m.atAns then true else acc.2))
    ([], false)

/-! ## Trail round-trip (C1) -/

theorem updAddr_same (f : Addr → Val) (a : Addr) : updAddr f a (f a) = f := by
  funext x
  unfold updAddr
  split <;> simp_all

theorem updAddr_overwrite (f : Addr → Val) (a : Addr) (v w : Val) :
    updAddr (updAddr f a v) a w = updAddr f a w := by
  funext x
  unfold updAddr
  split <;> rfl

theorem updAddr_comm (f : Addr → Val) (a b : Addr) (v w : Val) (h : a ≠ b) :
    updAddr (updAddr f a v) b w = updAddr (updAddr f b w) a v := by
  funext x
  unfold updAddr
  rcases eq_or_ne x a with rfl | hxa <;> rcases eq_or_ne x b with rfl | hxb <;>
    simp_all

/-- Restoring a stack of cells ignores an intervening write to an
address that one of the cells covers. -/
theorem undoCells_updAddr (cells : List (Addr × Val)) (f : Addr → Val)
    (a : Addr) (v : Val) (h : a ∈ cells.map Prod.fst) :
    undoCells cells (updAddr f a v) = undoCells cells f := by
  induction cells generalizing f with
  | nil => simp at h
  | cons c rest ih =>
      show undoCells rest (updAddr (updAddr f a v) c.1 c.2) =
        undoCells rest (updAddr f c.1 c.2)
      rcases eq_or_ne a c.1 with heq | hne
      · rw [heq, updAddr_overwrite]
      · have hmem : a ∈ rest.map Prod.fst := by
          rcases List.mem_cons.mp h with h1 | h1
          · exact absurd h1 hne
          · exact h1
        rw [updAddr_comm _ _ _ _ _ hne]
        exact ih (updAddr f c.1 c.2) hmem

/-- The invariant that forward execution maintains for every trail
kind: the cells pushed since the marker sit on top of the old ones,
restoring them in LIFO order recovers the memory at the marker, and
every location in `saved` is covered by one of the new cells. -/
def SInv (s0 s : TrailState) (saved : List (TrailKind × Addr)) : Prop :=
  ∀ k, ∃ nc, s.cells k = nc ++ s0.cells k ∧
    undoCells nc (s.mem k) = s0.mem k ∧
    ∀ a, (k, a) ∈ saved → a ∈ nc.map Prod.fst

theorem sInv_init (s0 : TrailState) : SInv s0 s0 [] := by
  intro k
  exact ⟨[], rfl, rfl, by simp⟩

theorem sInv_exec (ops : List TrailOp) :
    ∀ (saved : List (TrailKind × Addr)) (s0 s : TrailState),
      disciplinedFrom saved ops = true → SInv s0 s saved →
      ∃ saved', (∀ q ∈ saved, q ∈ saved') ∧ SInv s0 (execOps ops s) saved' := by
  induction ops with
  | nil =>
      intro saved s0 s _ hI
      exact ⟨saved, fun q hq => hq, hI⟩
  | cons op rest ih =>
      intro saved s0 s hd hI
      cases op with
      | save k a =>
          have hd' : disciplinedFrom ((k, a) :: saved) rest = true := hd
          have hI' : SInv s0 (saveValue k a s) ((k, a) :: saved) := by
            intro k'
            obtain ⟨nc, hcells, hundo, hcov⟩ := hI k'
            by_cases hk : k' = k
            · subst hk
              refine ⟨(a, s.mem k' a) :: nc, ?_, ?_, ?_⟩
              · simp [saveValue, hcells]
              · show undoCells nc (updAddr ((saveValue k' a s).mem k') a (s.mem k' a)) = _
                have hmem : (saveValue k' a s).mem = s.mem := rfl
                rw [hmem, updAddr_same]
                exact hundo
              · intro a' ha'
                rcases List.mem_cons.mp ha' with h1 | h1
                · simp [Prod.ext_iff] at h1
                  simp [h1]
                · simp only [List.map_cons, List.mem_cons]
                  exact Or.inr (hcov a' h1)
            · refine ⟨nc, ?_, hundo, ?_⟩
              · simpa [saveValue, hk] using hcells
              · intro a' ha'
                rcases List.mem_cons.mp ha' with h1 | h1
                · exact absurd (congrArg Prod.fst h1) hk
                · exact hcov a' h1
          obtain ⟨saved', hsub, hfin⟩ :=
            ih ((k, a) :: saved) s0 (saveValue k a s) hd' hI'
          exact ⟨saved', fun q hq => hsub q (List.mem_cons_of_mem _ hq), hfin⟩
      | write k a v =>
          simp only [disciplinedFrom, Bool.and_eq_true, decide_eq_true_eq] at hd
          obtain ⟨hsav, hd'⟩ := hd
          have hI' : SInv s0 (writeValue k a v s) saved := by
            intro k'
            obtain ⟨nc, hcells, hundo, hcov⟩ := hI k'
            by_cases hk : k' = k
            · subst hk
              refine ⟨nc, hcells, ?_, hcov⟩
              have hm : (writeValue k' a v s).mem k' = updAddr (s.mem k') a v := by
                simp [writeValue, updMem]
              rw [hm, undoCells_updAddr nc (s.mem k') a v (hcov a hsav)]
              exact hundo
            · refine ⟨nc, hcells, ?_, hcov⟩
              have hm : (writeValue k a v s).mem k' = s.mem k' := by
                simp [writeValue, updMem, hk]
              rw [hm]
              exact hundo
          exact ih saved s0 (writeValue k a v s) hd' hI'

/-- C1. **Trail round-trip.**  For every interleaving of save
operations and mutations of the saved locations (in the source's
save-before-write discipline) bracketed by a marker snapshot and
`Trail::BacktrackTo` on that marker: the value at every saved
location after the backtrack equals its value at the moment the
marker was taken, the popped cells are restored in LIFO order per
trail kind (the `backtrackTo`/`undoCells` definitions), and each
trail's contents — in particular its size — equal those recorded in
the marker. -/
theorem trail_roundtrip (ops : List TrailOp) (s0 : TrailState)
    (hd : disciplinedFrom [] ops = true) :
    (∀ k a, savedBy ops k a →
        (backtrackTo (markOf s0) (execOps ops s0)).mem k a = s0.mem k a) ∧
    (∀ k, ((backtrackTo (markOf s0) (execOps ops s0)).cells k).length =
        markOf s0 k) ∧
    (∀ k, (backtrackTo (markOf s0) (execOps ops s0)).cells k = s0.cells k) := by
  obtain ⟨saved', _, hI⟩ := sInv_exec ops [] s0 s0 hd (sInv_init s0)
  have key : ∀ k, (backtrackTo (markOf s0) (execOps ops s0)).mem k = s0.mem k ∧
      (backtrackTo (markOf s0) (execOps ops s0)).cells k = s0.cells k := by
    intro k
    obtain ⟨nc, hcells, hundo, _⟩ := hI k
    have hlen : ((execOps ops s0).cells k).length - markOf s0 k = nc.length := by
      rw [hcells]
      simp [markOf]
    constructor
    · show undoCells (((execOps ops s0).cells k).take _) _ = _
      rw [hlen, hcells, List.take_left]
      exact hundo
    · show (((execOps ops s0).cells k).drop _) = _
      rw [hlen, hcells, List.drop_left]
  exact ⟨fun k a _ => by rw [(key k).1],
    fun k => by rw [(key k).2]; rfl, fun k => (key k).2⟩

/-- Concrete instantiation of `trail_roundtrip`: a disciplined
interleaving over three kinds, checked at explicit inputs. -/
def opsW : List TrailOp :=
  [TrailOp.save TrailKind.tInt 0, TrailOp.write TrailKind.tInt 0 5,
   TrailOp.save TrailKind.tBool 2, TrailOp.save TrailKind.tInt 0,
   TrailOp.write TrailKind.tInt 0 7, TrailOp.write TrailKind.tBool 2 1,
   TrailOp.save TrailKind.tPtr 3, TrailOp.write TrailKind.tPtr 3 9,
   TrailOp.write TrailKind.tInt 0 11]

def trailW : TrailState :=
  { mem := fun _ a => Int.ofNat a, cells := fun _ => [] }

theorem trail_roundtrip_witness :
    disciplinedFrom [] opsW = true ∧
    ((∀ k a, savedBy opsW k a →
        (backtrackTo (markOf trailW) (execOps opsW trailW)).mem k a =
          trailW.mem k a) ∧
     (∀ k, ((backtrackTo (markOf trailW) (execOps opsW trailW)).cells k).length =
        markOf trailW k) ∧
     (∀ k, (backtrackTo (markOf trailW) (execOps opsW trailW)).cells k =
        trailW.cells k)) :=
  ⟨by decide, trail_roundtrip opsW trailW (by decide)⟩

/-! ## Monitor dispatch (C8) -/

theorem acceptSolutionRun_go (ms : List MonitorR) (log : List Nat) (v : Bool) :
    ms.foldl
      (fun acc m => (acc.1 ++ [m.ident], if !m.acceptAns then false else acc.2))
      (log, v) =
    (log ++ ms.map MonitorR.ident, v && ms.all MonitorR.acceptAns) := by
  induction ms generalizing log v with
  | nil => simp
  | cons m rest ih =>
      have hb : (if !m.acceptAns then false else v) = (v && m.acceptAns) := by
        cases m.acceptAns <;> cases v <;> rfl
      simp only [List.foldl_cons, ih, hb, List.map_cons, List.all_cons]
      refine Prod.ext ?_ ?_
      · simp
      · show ((v && m.acceptAns) && rest.all MonitorR.acceptAns) =
          (v && (m.acceptAns && rest.all MonitorR.acceptAns))
        rw [Bool.and_assoc]

theorem atSolutionRun_go (ms : List MonitorR) (log : List Nat) (v : Bool) :
    ms.foldl
      (fun acc m => (acc.1 ++ [m.ident], if m.atAns then true else acc.2))
      (log, v) =
    (log ++ ms.map MonitorR.ident, v || ms.any MonitorR.atAns) := by
  induction ms generalizing log v with
  | nil => simp
  | cons m rest ih =>
      have hb : (if m.atAns then true else v) = (v || m.atAns) := by
        cases m.atAns <;> cases v <;> rfl
      simp only [List.foldl_cons, ih, hb, List.map_cons, List.any_cons]
      refine Prod.ext ?_ ?_
      · simp
      · show ((v || m.atAns) || rest.any MonitorR.atAns) =
          (v || (m.atAns || rest.any MonitorR.atAns))
        rw [Bool.or_assoc]

/-- C8. **Monitor universality of the solution hooks.**
`Search::AcceptSolution` consults every registered monitor in
registration order — also after one has answered `false` — and returns
the conjunction of the answers; `Search::AtSolution` consults every
monitor in registration order and returns the disjunction (true iff at
least one monitor answered true). -/
theorem monitor_solution_hooks (ms : List MonitorR) :
    (acceptSolutionRun ms).1 = ms.map MonitorR.ident ∧
    (acceptSolutionRun ms).2 = ms.all MonitorR.acceptAns ∧
    (atSolutionRun ms).1 = ms.map MonitorR.ident ∧
    (atSolutionRun ms).2 = ms.any MonitorR.atAns := by
  unfold acceptSolutionRun atSolutionRun
  rw [acceptSolutionRun_go, atSolutionRun_go]
  simp

/-! ## Queue::AfterFailure (C5) -/

/-- C5. **Failure cleanup.**  `Queue::AfterFailure` empties every
priority queue and returns the dequeued cells to the corresponding
free-lists, clears the pending-constraint list, resets the freeze
level, the in-process flag and the in-add flag to their quiescent
values, runs the registered on-failure action exactly once and then
clears it — so a second failure without re-registration runs no
action. -/
theorem afterFailure_spec (s : QueueState) :
    (afterFailure s).normalQ = [] ∧
    (afterFailure s).varQ = [] ∧
    (afterFailure s).delayedQ = [] ∧
    (afterFailure s).freeN = s.freeN + s.normalQ.length ∧
    (afterFailure s).freeV = s.freeV + s.varQ.length ∧
    (afterFailure s).freeD = s.freeD + s.delayedQ.length ∧
    (afterFailure s).toAdd = [] ∧
    (afterFailure s).freezeLevel = 0 ∧
    (afterFailure s).inProcess = false ∧
    (afterFailure s).inAdd = false ∧
    (afterFailure s).actionLog = s.actionLog ++ s.clearAction.toList ∧
    (afterFailure s).clearAction = none ∧
    (afterFailure (afterFailure s)).actionLog = (afterFailure s).actionLog := by
  refine ⟨rfl, rfl, rfl, rfl, rfl, rfl, rfl, rfl, rfl, rfl, rfl, rfl, ?_⟩
  simp [afterFailure]

/-! ## Solver::PushState / Solver::PopState and the queue stamp (C10) -/

/-- C10. **Marker operations bump the stamp.**  Every `Solver::PushState`
— for any marker type and info — and every successful `Solver::PopState`
increment the queue's stamp by exactly one, and afterwards every demon
whose stamp was at most the previous queue stamp passes `Queue::Enqueue`'s
`demon->stamp() < stamp_` test, i.e. becomes eligible for enqueueing
again. -/
theorem pushPopState_stamp (t : MarkerType) (info : StateInfo) (s : SolverCore)
    (hne : s.markerStack ≠ []) :
    (pushState t info s).queue.stamp = s.queue.stamp + 1 ∧
    (∀ d, s.queue.stamps d ≤ s.queue.stamp →
        (pushState t info s).queue.stamps d < (pushState t info s).queue.stamp) ∧
    (∃ mt i s', popState s = some (mt, i, s') ∧
        s'.queue.stamp = s.queue.stamp + 1 ∧
        (∀ d, s.queue.stamps d ≤ s.queue.stamp →
            s'.queue.stamps d < s'.queue.stamp)) := by
  refine ⟨rfl, fun d hd => by
      show s.queue.stamps d < s.queue.stamp + 1
      omega, ?_⟩
  match hms : s.markerStack with
  | [] => exact absurd hms hne
  | m :: rest =>
      refine ⟨m.type, m.info,
        { trail :=
            if m.type ≠ MarkerType.REVERSIBLE_ACTION ∨ m.info.intInfo = 0 then
              backtrackTo m.snapshot s.trail
            else s.trail,
          markerStack := rest, queue := increaseStamp s.queue },
        ?_, rfl, fun d hd => by
          show s.queue.stamps d < s.queue.stamp + 1
          omega⟩
      simp [popState, hms]

/-- Concrete instantiation of `pushPopState_stamp`. -/
def solverCoreW : SolverCore :=
  { trail := trailW,
    markerStack := [⟨MarkerType.SIMPLE_MARKER, fun _ => 0, ⟨0, 0, 0, 0⟩⟩],
    queue :=
      { normalQ := [], varQ := [], delayedQ := [], stamp := 1,
        freezeLevel := 0, inProcess := false, inAdd := false, toAdd := [],
        clearAction := none, actionLog := [], freeN := 0, freeV := 0,
        freeD := 0, nextTime := 0, stamps := fun _ => 0 } }

theorem pushPopState_stamp_witness :
    solverCoreW.markerStack ≠ [] ∧
    ((pushState MarkerType.CHOICE_POINT ⟨0, 0, 0, 0⟩ solverCoreW).queue.stamp =
        solverCoreW.queue.stamp + 1 ∧
     (∀ d, solverCoreW.queue.stamps d ≤ solverCoreW.queue.stamp →
        (pushState MarkerType.CHOICE_POINT ⟨0, 0, 0, 0⟩ solverCoreW).queue.stamps d <
          (pushState MarkerType.CHOICE_POINT ⟨0, 0, 0, 0⟩ solverCoreW).queue.stamp) ∧
     (∃ mt i s', popState solverCoreW = some (mt, i, s') ∧
        s'.queue.stamp = solverCoreW.queue.stamp + 1 ∧
        (∀ d, solverCoreW.queue.stamps d ≤ solverCoreW.queue.stamp →
            s'.queue.stamps d < s'.queue.stamp))) :=
  ⟨by simp [solverCoreW],
   pushPopState_stamp MarkerType.CHOICE_POINT ⟨0, 0, 0, 0⟩ solverCoreW
     (by simp [solverCoreW])⟩

/-! ## Queue stamp behaviour (C9) -/

theorem takeFreeCell_stamp (s : QueueState) (p : DemonPriority) :
    (s.takeFreeCell p).stamp = s.stamp := by
  cases p <;> rfl

theorem setQueue_stamp (s : QueueState) (p : DemonPriority)
    (l : List (Nat × Nat)) : (s.setQueue p l).stamp = s.stamp := by
  cases p <;> rfl

theorem returnCell_stamp (s : QueueState) (p : DemonPriority) :
    (s.returnCell p).stamp = s.stamp := by
  cases p <;> rfl

theorem enqueueRaw_stamp (env : DemonEnv) (d : Nat) (s : QueueState) :
    (enqueueRaw env d s).stamp = s.stamp := by
  unfold enqueueRaw
  split
  · show ((((s.takeFreeCell (env.prio d)).setQueue (env.prio d) _)).stamp) = _
    rw [setQueue_stamp, takeFreeCell_stamp]
  · rfl

theorem runEffects_stamp (env : DemonEnv) (ds : List Nat) (s : QueueState) :
    (ds.foldl (fun st d' => enqueueRaw env d' st) s).stamp = s.stamp := by
  induction ds generalizing s with
  | nil => rfl
  | cons d rest ih => rw [List.foldl_cons, ih, enqueueRaw_stamp]

theorem dispatchFront_stamp (env : DemonEnv) (p : DemonPriority) (d : Nat)
    (rest : List (Nat × Nat)) (s : QueueState) :
    (dispatchFront env p d rest s).stamp = s.stamp := by
  unfold dispatchFront
  rw [runEffects_stamp]
  show ((s.setQueue p rest).returnCell p).stamp = s.stamp
  rw [returnCell_stamp, setQueue_stamp]

theorem processFinal_stamp (env : DemonEnv) (fuel : Nat) (s : QueueState) :
    (processFinal env fuel s).stamp = s.stamp := by
  induction fuel generalizing s with
  | zero => rfl
  | succ n ih =>
      unfold processFinal
      rcases hsel : selectPriority s with _ | p
      · rfl
      · rcases hq : s.queueOf p with _ | ⟨⟨d, t⟩, rest⟩
        · simp [hq]
        · simp only [hq]
          rw [ih, dispatchFront_stamp]

theorem process_stamp (env : DemonEnv) (fuel : Nat) (s : QueueState) :
    (process env fuel s).stamp = s.stamp := by
  unfold process
  split
  · rfl
  · show (processFinal env fuel { s with inProcess := true }).stamp = s.stamp
    rw [processFinal_stamp]

theorem processIfUnfrozen_stamp (env : DemonEnv) (fuel : Nat) (s : QueueState) :
    (processIfUnfrozen env fuel s).stamp = s.stamp := by
  unfold processIfUnfrozen
  split
  · exact process_stamp env fuel s
  · rfl

theorem applyQOp_stamp_mono (env : DemonEnv) (s : QueueState) (op : QOp) :
    s.stamp ≤ (applyQOp env s op).stamp := by
  cases op with
  | freezeOp => exact Nat.le_succ _
  | unfreezeOp fuel =>
      show s.stamp ≤ (processIfUnfrozen env fuel _).stamp
      rw [processIfUnfrozen_stamp]
  | enqueueOp d fuel =>
      show s.stamp ≤ (enqueueTop env fuel d s).stamp
      unfold enqueueTop
      split
      · rw [processIfUnfrozen_stamp, enqueueRaw_stamp]
      · exact Nat.le_refl _
  | processOp fuel =>
      show s.stamp ≤ (process env fuel s).stamp
      rw [process_stamp]
  | increaseStampOp => exact Nat.le_succ _
  | afterFailureOp => exact Nat.le_refl _

/-- C9 (amended). **Stamp monotonicity.**  The queue stamp is
monotonically non-decreasing across any sequence of queue operations
of the solver's lifetime; every call to `Queue::Freeze` increments it
by exactly one, making previously dispatched demons re-enqueueable in
the next cycle, while `Queue::Unfreeze` leaves the stamp unchanged (it
only decrements the freeze level and possibly processes the queue). -/
theorem queueStamp_monotone (env : DemonEnv) (ops : List QOp) (s : QueueState) :
    s.stamp ≤ (applyQOps env ops s).stamp ∧
    (freeze s).stamp = s.stamp + 1 ∧
    (∀ fuel, (unfreeze env fuel s).stamp = s.stamp) ∧
    (∀ d, s.stamps d ≤ s.stamp → (freeze s).stamps d < (freeze s).stamp) := by
  refine ⟨?_, rfl, fun fuel => processIfUnfrozen_stamp env fuel _, fun d hd => by
    show s.stamps d < s.stamp + 1
    omega⟩
  induction ops generalizing s with
  | nil => exact Nat.le_refl _
  | cons op rest ih =>
      exact Nat.le_trans (applyQOp_stamp_mono env s op) (ih (applyQOp env s op))

/-- A concrete queue state with the stamp at its initial value 1 and
one freeze level to undo. -/
def queueW : QueueState :=
  { normalQ := [], varQ := [], delayedQ := [], stamp := 1,
    freezeLevel := 1, inProcess := false, inAdd := false, toAdd := [],
    clearAction := none, actionLog := [], freeN := 0, freeV := 0,
    freeD := 0, nextTime := 0, stamps := fun _ => 0 }

def demonEnvW : DemonEnv :=
  { prio := fun _ => DemonPriority.NORMAL_PRIORITY, eff := fun _ => [] }

/-- C9 (counterexample to the claim as stated): a call to
`Queue::Unfreeze` leaves the stamp unchanged — it does not increment
it. -/
theorem unfreeze_does_not_bump_stamp :
    (unfreeze demonEnvW 5 queueW).stamp = queueW.stamp ∧
    ¬ ((unfreeze demonEnvW 5 queueW).stamp = queueW.stamp + 1) := by
  constructor
  · rfl
  · decide

theorem queueStamp_monotone_witness :
    (queueW.stamp ≤
        (applyQOps demonEnvW [QOp.freezeOp, QOp.unfreezeOp 2] queueW).stamp ∧
     (freeze queueW).stamp = queueW.stamp + 1 ∧
     (∀ fuel, (unfreeze demonEnvW fuel queueW).stamp = queueW.stamp) ∧
     (∀ d, queueW.stamps d ≤ queueW.stamp →
        (freeze queueW).stamps d < (freeze queueW).stamp)) :=
  queueStamp_monotone demonEnvW [QOp.freezeOp, QOp.unfreezeOp 2] queueW

/-! ## Queue dispatch order and per-cycle enqueue behaviour (C3, C4) -/

theorem takeFreeCell_queueOf (s : QueueState) (p q : DemonPriority) :
    (s.takeFreeCell p).queueOf q = s.queueOf q := by
  cases p <;> cases q <;> rfl

theorem takeFreeCell_nextTime (s : QueueState) (p : DemonPriority) :
    (s.takeFreeCell p).nextTime = s.nextTime := by
  cases p <;> rfl

theorem takeFreeCell_stamps (s : QueueState) (p : DemonPriority) :
    (s.takeFreeCell p).stamps = s.stamps := by
  cases p <;> rfl

theorem setQueue_queueOf (s : QueueState) (p q : DemonPriority)
    (l : List (Nat × Nat)) :
    (s.setQueue p l).queueOf q = if q = p then l else s.queueOf q := by
  cases p <;> cases q <;> simp [QueueState.setQueue, QueueState.queueOf]

theorem setQueue_nextTime (s : QueueState) (p : DemonPriority)
    (l : List (Nat × Nat)) : (s.setQueue p l).nextTime = s.nextTime := by
  cases p <;> rfl

theorem setQueue_stamps (s : QueueState) (p : DemonPriority)
    (l : List (Nat × Nat)) : (s.setQueue p l).stamps = s.stamps := by
  cases p <;> rfl

theorem returnCell_queueOf (s : QueueState) (p q : DemonPriority) :
    (s.returnCell p).queueOf q = s.queueOf q := by
  cases p <;> cases q <;> rfl

theorem returnCell_nextTime (s : QueueState) (p : DemonPriority) :
    (s.returnCell p).nextTime = s.nextTime := by
  cases p <;> rfl

theorem returnCell_stamps (s : QueueState) (p : DemonPriority) :
    (s.returnCell p).stamps = s.stamps := by
  cases p <;> rfl

theorem enqueueRaw_queueOf (env : DemonEnv) (d : Nat) (s : QueueState)
    (q : DemonPriority) :
    (enqueueRaw env d s).queueOf q =
      if s.stamps d < s.stamp ∧ q = env.prio d then
        s.queueOf q ++ [(d, s.nextTime)]
      else s.queueOf q := by
  unfold enqueueRaw
  by_cases he : s.stamps d < s.stamp
  · rw [if_pos he]
    show ((((s.takeFreeCell (env.prio d)).setQueue (env.prio d) _)).queueOf q) = _
    rw [setQueue_queueOf, takeFreeCell_queueOf, takeFreeCell_queueOf]
    by_cases hq : q = env.prio d
    · subst hq
      simp [he]
    · simp [he, hq]
  · simp [he]

theorem enqueueRaw_nextTime (env : DemonEnv) (d : Nat) (s : QueueState) :
    (enqueueRaw env d s).nextTime =
      if s.stamps d < s.stamp then s.nextTime + 1 else s.nextTime := by
  unfold enqueueRaw
  by_cases he : s.stamps d < s.stamp
  · simp [he]
  · simp [he]

theorem enqueueRaw_stamps (env : DemonEnv) (d : Nat) (s : QueueState) (x : Nat) :
    (enqueueRaw env d s).stamps x =
      if s.stamps d < s.stamp ∧ x = d then s.stamp else s.stamps x := by
  unfold enqueueRaw
  by_cases he : s.stamps d < s.stamp
  · by_cases hx : x = d <;> simp [he, hx]
  · simp [he]

theorem popMid_queueOf (p : DemonPriority) (rest : List (Nat × Nat))
    (s : QueueState) (q : DemonPriority) :
    ((((s.setQueue p rest).returnCell p)).queueOf q) =
      if q = p then rest else s.queueOf q := by
  rw [returnCell_queueOf, setQueue_queueOf]

/-- A container's ghost enqueue times are strictly increasing from
front to back: cells are appended at the back and removed at the
front. -/
def qSorted (l : List (Nat × Nat)) : Prop :=
  l.Pairwise (fun a b => a.2 < b.2)

/-- Every ghost time in the container is below the enqueue counter. -/
def qBound (l : List (Nat × Nat)) (n : Nat) : Prop :=
  ∀ c ∈ l, c.2 < n

/-- FIFO well-formedness of the queue state. -/
def WFq (s : QueueState) : Prop :=
  (qSorted s.normalQ ∧ qBound s.normalQ s.nextTime) ∧
  (qSorted s.varQ ∧ qBound s.varQ s.nextTime) ∧
  (qSorted s.delayedQ ∧ qBound s.delayedQ s.nextTime)

instance (s : QueueState) : Decidable (WFq s) := by
  unfold WFq qSorted qBound
  infer_instance

theorem WFq_iff (s : QueueState) :
    WFq s ↔ ∀ p, qSorted (s.queueOf p) ∧ qBound (s.queueOf p) s.nextTime := by
  constructor
  · rintro ⟨h1, h2, h3⟩ p
    cases p
    · exact h3
    · exact h2
    · exact h1
  · intro h
    exact ⟨h DemonPriority.NORMAL_PRIORITY, h DemonPriority.VAR_PRIORITY,
      h DemonPriority.DELAYED_PRIORITY⟩

theorem qSorted_append (l : List (Nat × Nat)) (d n : Nat)
    (h : qSorted l) (hb : qBound l n) : qSorted (l ++ [(d, n)]) := by
  rw [qSorted, List.pairwise_append]
  refine ⟨h, List.pairwise_singleton _ _, ?_⟩
  intro a ha b hbm
  rcases List.mem_singleton.mp hbm with rfl
  exact hb a ha

theorem qBound_mono (l : List (Nat × Nat)) (n n' : Nat)
    (h : qBound l n) (hm : n ≤ n') : qBound l n' :=
  fun c hc => Nat.lt_of_lt_of_le (h c hc) hm

theorem qBound_append (l : List (Nat × Nat)) (d n : Nat) (h : qBound l n) :
    qBound (l ++ [(d, n)]) (n + 1) := by
  intro c hc
  rcases List.mem_append.mp hc with h1 | h1
  · exact Nat.lt_succ_of_lt (h c h1)
  · rcases List.mem_singleton.mp h1 with rfl
    exact Nat.lt_succ_self _

theorem enqueueRaw_WFq (env : DemonEnv) (d : Nat) (s : QueueState)
    (h : WFq s) : WFq (enqueueRaw env d s) := by
  rw [WFq_iff] at h ⊢
  intro p
  rw [enqueueRaw_queueOf, enqueueRaw_nextTime]
  by_cases he : s.stamps d < s.stamp
  · rw [if_pos he]
    by_cases hp : p = env.prio d
    · rw [if_pos ⟨he, hp⟩]
      exact ⟨qSorted_append _ d s.nextTime (h p).1 (h p).2,
        qBound_append _ d s.nextTime (h p).2⟩
    · rw [if_neg (fun hc => hp hc.2)]
      exact ⟨(h p).1, qBound_mono _ _ _ (h p).2 (Nat.le_succ _)⟩
  · rw [if_neg he, if_neg (fun hc : _ ∧ _ => he hc.1)]
    exact h p

theorem runEffects_WFq (env : DemonEnv) (ds : List Nat) (s : QueueState)
    (h : WFq s) : WFq (ds.foldl (fun st d' => enqueueRaw env d' st) s) := by
  induction ds generalizing s with
  | nil => exact h
  | cons d rest ih => exact ih _ (enqueueRaw_WFq env d s h)

theorem dispatchFront_WFq (env : DemonEnv) (p : DemonPriority) (d t : Nat)
    (rest : List (Nat × Nat)) (s : QueueState) (h : WFq s)
    (hq : s.queueOf p = (d, t) :: rest) :
    WFq (dispatchFront env p d rest s) := by
  apply runEffects_WFq
  rw [WFq_iff] at h ⊢
  intro q
  have hqq : ({ (s.setQueue p rest).returnCell p with
      stamps := fun x => if x = d then s.stamp - 1 else s.stamps x }).queueOf q =
      (((s.setQueue p rest).returnCell p)).queueOf q := by
    cases q <;> rfl
  have hnt : ({ (s.setQueue p rest).returnCell p with
      stamps := fun x => if x = d then s.stamp - 1 else s.stamps x }).nextTime =
      s.nextTime := by
    show (((s.setQueue p rest).returnCell p)).nextTime = s.nextTime
    rw [returnCell_nextTime, setQueue_nextTime]
  rw [hqq, hnt, popMid_queueOf]
  by_cases hqp : q = p
  · subst hqp
    have hs := (h q).1
    have hb := (h q).2
    rw [hq] at hs hb
    rw [if_pos rfl]
    constructor
    · exact List.Pairwise.of_cons hs
    · intro c hc
      exact hb c (List.mem_cons_of_mem _ hc)
  · rw [if_neg hqp]
    exact h q

theorem selectPriority_delayed (s : QueueState)
    (h : selectPriority s = some DemonPriority.DELAYED_PRIORITY) :
    s.normalQ = [] ∧ s.varQ = [] := by
  unfold selectPriority at h
  split_ifs at h <;> simp_all

theorem selectPriority_var (s : QueueState)
    (h : selectPriority s = some DemonPriority.VAR_PRIORITY) :
    s.normalQ = [] := by
  unfold selectPriority at h
  split_ifs at h <;> simp_all

/-- C3. **Priority discipline and FIFO dispatch.**  In every run of the
drain loop of `Queue::Process`: a DELAYED-priority demon is dispatched
only when the NORMAL and VAR queues are both empty, and a VAR-priority
demon only when the NORMAL queue is empty; and each dispatched demon
was enqueued no later than every demon still pending in its own
priority queue — together with FIFO well-formedness (append at the
back, dispatch at the front) this is dispatch in FIFO order of
enqueueing within each priority class. -/
theorem queue_dispatch_order (env : DemonEnv) (fuel : Nat) :
    ∀ s : QueueState, WFq s → ∀ e ∈ processTrace env fuel s,
      (e.prio = DemonPriority.DELAYED_PRIORITY → e.qN = [] ∧ e.qV = []) ∧
      (e.prio = DemonPriority.VAR_PRIORITY → e.qN = []) ∧
      (∀ c ∈ e.ownQueue, e.time ≤ c.2) := by
  induction fuel with
  | zero =>
      intro s _ e he
      simp [processTrace] at he
  | succ n ih =>
      intro s hWF e he
      rw [processTrace] at he
      split at he
      · exact absurd he (List.not_mem_nil e)
      · rename_i p hsel
        split at he
        · exact absurd he (List.not_mem_nil e)
        · rename_i d t rest hq
          rcases List.mem_cons.mp he with rfl | he'
          · refine ⟨?_, ?_, ?_⟩
            · intro hp
              have := selectPriority_delayed s (hp ▸ hsel)
              exact ⟨this.1, this.2⟩
            · intro hp
              exact selectPriority_var s (hp ▸ hsel)
            · have hown : (⟨d, p, t, s.stamp, s.normalQ, s.varQ,
                  s.delayedQ⟩ : DispatchEvent).ownQueue = s.queueOf p := by
                cases p <;> rfl
              rw [hown, hq]
              have hs := ((WFq_iff s).mp hWF p).1
              rw [hq] at hs
              intro c hc
              rcases List.mem_cons.mp hc with rfl | hc'
              · exact Nat.le_refl _
              · exact Nat.le_of_lt (((List.pairwise_cons.mp hs).1) c hc')
          · exact ih (dispatchFront env p d rest s)
              (dispatchFront_WFq env p d t rest s hWF hq) e he'

/-- Concrete instantiation of `queue_dispatch_order`: three demons of
the three priorities, the delayed one waking the normal one up again. -/
def demonEnv3 : DemonEnv :=
  { prio := fun d =>
      if d = 0 then DemonPriority.NORMAL_PRIORITY
      else if d = 1 then DemonPriority.VAR_PRIORITY
      else DemonPriority.DELAYED_PRIORITY,
    eff := fun d => if d = 2 then [0] else [] }

def queue3 : QueueState :=
  { normalQ := [(0, 0)], varQ := [(1, 1)], delayedQ := [(2, 2)], stamp := 1,
    freezeLevel := 0, inProcess := true, inAdd := false, toAdd := [],
    clearAction := none, actionLog := [], freeN := 0, freeV := 0,
    freeD := 0, nextTime := 3, stamps := fun _ => 1 }

theorem queue_dispatch_order_witness :
    WFq queue3 ∧
    ∀ e ∈ processTrace demonEnv3 10 queue3,
      (e.prio = DemonPriority.DELAYED_PRIORITY → e.qN = [] ∧ e.qV = []) ∧
      (e.prio = DemonPriority.VAR_PRIORITY → e.qN = []) ∧
      (∀ c ∈ e.ownQueue, e.time ≤ c.2) :=
  ⟨by decide, queue_dispatch_order demonEnv3 10 queue3 (by decide)⟩

/-- Each demon occupies at most one queue cell, and every pending
demon carries the current queue stamp (the state `Queue::Enqueue`'s
stamp test maintains while the stamp is not bumped). -/
def OncePer (s : QueueState) : Prop :=
  s.pending.Nodup ∧ ∀ d ∈ s.pending, s.stamps d = s.stamp

instance (s : QueueState) : Decidable (OncePer s) := by
  unfold OncePer
  infer_instance

theorem enqueueRaw_of_pending (env : DemonEnv) (d : Nat) (s : QueueState)
    (h : OncePer s) (hd : d ∈ s.pending) : enqueueRaw env d s = s := by
  unfold enqueueRaw
  rw [if_neg]
  rw [h.2 d hd]
  exact Nat.lt_irrefl _

theorem not_pending_of_lt (s : QueueState) (d : Nat) (h : OncePer s)
    (he : s.stamps d < s.stamp) : d ∉ s.pending := by
  intro hm
  rw [h.2 d hm] at he
  exact Nat.lt_irrefl _ he

theorem perm_insert1 (A B C : List Nat) (d : Nat) :
    ((A ++ [d]) ++ B ++ C).Perm (d :: (A ++ B ++ C)) := by
  have h1 : (A ++ [d]) ++ B ++ C = A ++ d :: (B ++ C) := by simp
  have h2 : A ++ B ++ C = A ++ (B ++ C) := by simp
  rw [h1, h2]
  exact List.perm_middle

theorem perm_insert2 (A B C : List Nat) (d : Nat) :
    (A ++ (B ++ [d]) ++ C).Perm (d :: (A ++ B ++ C)) := by
  have h1 : A ++ (B ++ [d]) ++ C = (A ++ B) ++ d :: C := by simp
  rw [h1]
  exact List.perm_middle

theorem perm_insert3 (A B C : List Nat) (d : Nat) :
    (A ++ B ++ (C ++ [d])).Perm (d :: (A ++ B ++ C)) := by
  have h1 : A ++ B ++ (C ++ [d]) = (A ++ B ++ C) ++ [d] := by simp
  rw [h1]
  exact List.perm_append_singleton d _

theorem perm_extract2 (A R C : List Nat) (d : Nat) :
    (A ++ (d :: R) ++ C).Perm (d :: (A ++ R ++ C)) := by
  have h1 : A ++ (d :: R) ++ C = A ++ d :: (R ++ C) := by simp
  have h2 : A ++ R ++ C = A ++ (R ++ C) := by simp
  rw [h1, h2]
  exact List.perm_middle

theorem perm_extract3 (A B R : List Nat) (d : Nat) :
    (A ++ B ++ (d :: R)).Perm (d :: (A ++ B ++ R)) := by
  have h1 : A ++ B ++ (d :: R) = (A ++ B) ++ d :: R := by simp
  rw [h1]
  exact List.perm_middle

/-- Enqueueing a non-pending demon preserves the once-per-stamp
invariant. -/
theorem OncePer_of_perm_insert (s' s : QueueState) (d : Nat)
    (hperm : s'.pending.Perm (d :: s.pending))
    (hstamp : s'.stamp = s.stamp)
    (hstamps : ∀ x, s'.stamps x = if x = d then s.stamp else s.stamps x)
    (h : OncePer s) (hd : d ∉ s.pending) : OncePer s' := by
  constructor
  · rw [hperm.nodup_iff, List.nodup_cons]
    exact ⟨hd, h.1⟩
  · intro d' hd'
    rw [hperm.mem_iff, List.mem_cons] at hd'
    rw [hstamps, hstamp]
    rcases hd' with rfl | hmem
    · simp
    · by_cases hdd : d' = d
      · rw [if_pos hdd]
      · rw [if_neg hdd]
        exact h.2 d' hmem

/-- Dequeuing the front demon preserves the once-per-stamp invariant
(the dequeued demon's stamp is reset to `stamp - 1`). -/
theorem OncePer_of_perm_extract (s' s : QueueState) (d : Nat)
    (hperm : s.pending.Perm (d :: s'.pending))
    (hstamp : s'.stamp = s.stamp)
    (hstamps : ∀ x, s'.stamps x = if x = d then s.stamp - 1 else s.stamps x)
    (h : OncePer s) : OncePer s' := by
  have hnd : (d :: s'.pending).Nodup := hperm.nodup_iff.mp h.1
  rw [List.nodup_cons] at hnd
  refine ⟨hnd.2, ?_⟩
  intro d' hd'
  have hne : d' ≠ d := fun hdd => hnd.1 (hdd ▸ hd')
  rw [hstamps, if_neg hne, hstamp]
  exact h.2 d' (hperm.mem_iff.mpr (List.mem_cons_of_mem _ hd'))

theorem enqueueRaw_OncePer (env : DemonEnv) (d : Nat) (s : QueueState)
    (h : OncePer s) : OncePer (enqueueRaw env d s) := by
  unfold enqueueRaw
  by_cases he : s.stamps d < s.stamp
  · rw [if_pos he]
    have hd : d ∉ s.pending := not_pending_of_lt s d h he
    cases henv : env.prio d
    · refine OncePer_of_perm_insert _ s d ?_ rfl (fun x => rfl) h hd
      show (s.normalQ.map Prod.fst ++ s.varQ.map Prod.fst ++
          (s.delayedQ ++ [(d, s.nextTime)]).map Prod.fst).Perm (d :: s.pending)
      rw [List.map_append]
      exact perm_insert3 _ _ _ d
    · refine OncePer_of_perm_insert _ s d ?_ rfl (fun x => rfl) h hd
      show (s.normalQ.map Prod.fst ++ (s.varQ ++ [(d, s.nextTime)]).map Prod.fst ++
          s.delayedQ.map Prod.fst).Perm (d :: s.pending)
      rw [List.map_append]
      exact perm_insert2 _ _ _ d
    · refine OncePer_of_perm_insert _ s d ?_ rfl (fun x => rfl) h hd
      show ((s.normalQ ++ [(d, s.nextTime)]).map Prod.fst ++ s.varQ.map Prod.fst ++
          s.delayedQ.map Prod.fst).Perm (d :: s.pending)
      rw [List.map_append]
      exact perm_insert1 _ _ _ d
  · rw [if_neg he]
    exact h

theorem runEffects_OncePer (env : DemonEnv) (ds : List Nat) (s : QueueState)
    (h : OncePer s) :
    OncePer (ds.foldl (fun st d' => enqueueRaw env d' st) s) := by
  induction ds generalizing s with
  | nil => exact h
  | cons d rest ih => exact ih _ (enqueueRaw_OncePer env d s h)

theorem dispatchFront_OncePer (env : DemonEnv) (p : DemonPriority) (d t : Nat)
    (rest : List (Nat × Nat)) (s : QueueState) (h : OncePer s)
    (hq : s.queueOf p = (d, t) :: rest) :
    OncePer (dispatchFront env p d rest s) := by
  apply runEffects_OncePer
  cases p
  · simp only [QueueState.queueOf] at hq
    refine OncePer_of_perm_extract _ s d ?_ rfl (fun x => rfl) h
    show s.pending.Perm
      (d :: (s.normalQ.map Prod.fst ++ s.varQ.map Prod.fst ++ rest.map Prod.fst))
    show (s.normalQ.map Prod.fst ++ s.varQ.map Prod.fst ++
      s.delayedQ.map Prod.fst).Perm _
    rw [hq, List.map_cons]
    exact perm_extract3 _ _ _ d
  · simp only [QueueState.queueOf] at hq
    refine OncePer_of_perm_extract _ s d ?_ rfl (fun x => rfl) h
    show s.pending.Perm
      (d :: (s.normalQ.map Prod.fst ++ rest.map Prod.fst ++ s.delayedQ.map Prod.fst))
    show (s.normalQ.map Prod.fst ++ s.varQ.map Prod.fst ++
      s.delayedQ.map Prod.fst).Perm _
    rw [hq, List.map_cons]
    exact perm_extract2 _ _ _ d
  · simp only [QueueState.queueOf] at hq
    refine OncePer_of_perm_extract _ s d ?_ rfl (fun x => rfl) h
    show s.pending.Perm
      (d :: (rest.map Prod.fst ++ s.varQ.map Prod.fst ++ s.delayedQ.map Prod.fst))
    show (s.normalQ.map Prod.fst ++ s.varQ.map Prod.fst ++
      s.delayedQ.map Prod.fst).Perm _
    rw [hq, List.map_cons]
    exact List.Perm.refl _

theorem processTrace_nodup (env : DemonEnv) (fuel : Nat) :
    ∀ s : QueueState, OncePer s → ∀ e ∈ processTrace env fuel s,
      (e.qN.map Prod.fst ++ e.qV.map Prod.fst ++ e.qD.map Prod.fst).Nodup ∧
      e.stampAt = s.stamp := by
  induction fuel with
  | zero =>
      intro s _ e he
      simp [processTrace] at he
  | succ n ih =>
      intro s hOP e he
      rw [processTrace] at he
      split at he
      · exact absurd he (List.not_mem_nil e)
      · rename_i p hsel
        split at he
        · exact absurd he (List.not_mem_nil e)
        · rename_i d t rest hq
          rcases List.mem_cons.mp he with rfl | he'
          · exact ⟨hOP.1, rfl⟩
          · have := ih (dispatchFront env p d rest s)
              (dispatchFront_OncePer env p d t rest s hOP hq) e he'
            rw [dispatchFront_stamp] at this
            exact this

/-- C4 (amended). **Per-cycle enqueue discipline.**  Between two
increments of the queue stamp, a demon occupies at most one queue cell
at any time: while it is pending, every further `Queue::Enqueue` call
on it is a no-op (its stamp already equals the queue stamp); the queue
stamp never changes during the drain.  (After a dispatch the demon's
stamp is reset to `stamp - 1`, so it may be re-enqueued and dispatched
again within the same cycle — see the counterexample.) -/
theorem demon_enqueue_once_per_cycle (env : DemonEnv) (fuel : Nat)
    (s : QueueState) (h : OncePer s) :
    (∀ d ∈ s.pending, enqueueRaw env d s = s) ∧
    (∀ e ∈ processTrace env fuel s,
        (e.qN.map Prod.fst ++ e.qV.map Prod.fst ++ e.qD.map Prod.fst).Nodup ∧
        e.stampAt = s.stamp) :=
  ⟨fun d hd => enqueueRaw_of_pending env d s h hd,
   processTrace_nodup env fuel s h⟩

/-- A demon whose run re-enqueues itself. -/
def demonEnvSelf : DemonEnv :=
  { prio := fun _ => DemonPriority.NORMAL_PRIORITY, eff := fun _ => [0] }

def queueSelf : QueueState :=
  { normalQ := [(0, 0)], varQ := [], delayedQ := [], stamp := 1,
    freezeLevel := 0, inProcess := true, inAdd := false, toAdd := [],
    clearAction := none, actionLog := [], freeN := 0, freeV := 0,
    freeD := 0, nextTime := 1, stamps := fun _ => 1 }

/-- C4 (counterexample to the claim as stated): demon 0 is dispatched
twice within one `Process` cycle — the stamp recorded at both
dispatches is the same and the queue stamp never changes — because
`ProcessOneDemon` resets the dispatched demon's stamp to `stamp_ - 1`,
re-enabling `Enqueue` during the demon's own run. -/
theorem demon_dispatched_twice_same_cycle :
    (processTrace demonEnvSelf 2 queueSelf).map DispatchEvent.demon = [0, 0] ∧
    (processTrace demonEnvSelf 2 queueSelf).map DispatchEvent.stampAt =
      [queueSelf.stamp, queueSelf.stamp] ∧
    (processFinal demonEnvSelf 2 queueSelf).stamp = queueSelf.stamp ∧
    ¬ ((processTrace demonEnvSelf 2 queueSelf).countP
        (fun e => e.demon == 0) ≤ 1) := by
  refine ⟨by decide, by decide, by decide, by decide⟩

theorem demon_enqueue_once_per_cycle_witness :
    OncePer queueSelf ∧
    ((∀ d ∈ queueSelf.pending, enqueueRaw demonEnvSelf d queueSelf = queueSelf) ∧
     (∀ e ∈ processTrace demonEnvSelf 2 queueSelf,
        (e.qN.map Prod.fst ++ e.qV.map Prod.fst ++ e.qD.map Prod.fst).Nodup ∧
        e.stampAt = queueSelf.stamp)) :=
  ⟨by decide, demon_enqueue_once_per_cycle demonEnvSelf 2 queueSelf (by decide)⟩

/-! ## Root-node infeasibility and fail-outside-search (C6, C7) -/

/-- C6. **Root infeasibility.**  If propagation fails during the
initial (root-node) propagation of the first `NextSolution` of a
top-level search — before any choice point is opened — then
`NextSolution` runs `queue.AfterFailure`, backtracks to the
`INITIAL_SEARCH` sentinel, sets the state to `PROBLEM_INFEASIBLE` and
returns false; `Solve` on such a model returns false; and every
subsequent top-level `NextSolution` in state `PROBLEM_INFEASIBLE` or
`NO_MORE_SOLUTIONS` returns false immediately, leaving the state
untouched and never consulting the search loop. -/
theorem root_infeasible {Cstr : Type} (env : SearchEnv Cstr) (s : SolverSM Cstr)
    (hst : s.state = SolverState.OUTSIDE_SEARCH)
    (hfail : s.constraints.any env.failing = true) :
    nextSolution env s =
      (false,
        { s with state := SolverState.PROBLEM_INFEASIBLE,
                 events := s.events ++ [SEvent.beginInitialPropagation,
                   SEvent.queueAfterFailure,
                   SEvent.backtrackToSentinel INITIAL_SEARCH_SENTINEL] }) ∧
    (∀ s' : SolverSM Cstr, s'.state ≠ SolverState.IN_SEARCH →
        s'.state ≠ SolverState.IN_ROOT_NODE →
        s'.constraints.any env.failing = true → (solve env s').1 = false) ∧
    (∀ s' : SolverSM Cstr,
        s'.state = SolverState.PROBLEM_INFEASIBLE ∨
          s'.state = SolverState.NO_MORE_SOLUTIONS →
        nextSolution env s' = (false, s')) := by
  refine ⟨?_, ?_, ?_⟩
  · obtain ⟨st, cs, qa, ad, sc, fl, jb, ev⟩ := s
    simp only at hst hfail
    subst hst
    simp [nextSolution, SolverSM.log, hfail]
  · intro s' _ _ h3
    obtain ⟨st, cs, qa, ad, sc, fl, jb, ev⟩ := s'
    simp only at h3
    simp [solve, newSearch, nextSolution, SolverSM.log, h3]
  · intro s' h
    obtain ⟨st, cs, qa, ad, sc, fl, jb, ev⟩ := s'
    simp only at h
    rcases h with h | h <;> subst h <;> rfl

/-- A concrete search environment over boolean "constraints": a
constraint fails iff it is `true`; the loop and the one-level
backtrack are arbitrary concrete functions (the exercised paths never
reach them). -/
def envW : SearchEnv Bool :=
  { failing := id, falseConstraint := true, falseConstraintFails := rfl,
    loop := fun s => (false, s), backtrackOne := fun s => (true, s) }

def smW : SolverSM Bool :=
  { state := SolverState.OUTSIDE_SEARCH, constraints := [true],
    queueToAdd := [], additional := [], solutionCounter := 0, fails := 0,
    jmpbufFilled := false, events := [] }

theorem root_infeasible_witness :
    smW.state = SolverState.OUTSIDE_SEARCH ∧
    smW.constraints.any envW.failing = true ∧
    (nextSolution envW smW =
      (false,
        { smW with state := SolverState.PROBLEM_INFEASIBLE,
                   events := smW.events ++ [SEvent.beginInitialPropagation,
                     SEvent.queueAfterFailure,
                     SEvent.backtrackToSentinel INITIAL_SEARCH_SENTINEL] }) ∧
     (∀ s' : SolverSM Bool, s'.state ≠ SolverState.IN_SEARCH →
        s'.state ≠ SolverState.IN_ROOT_NODE →
        s'.constraints.any envW.failing = true → (solve envW s').1 = false) ∧
     (∀ s' : SolverSM Bool,
        s'.state = SolverState.PROBLEM_INFEASIBLE ∨
          s'.state = SolverState.NO_MORE_SOLUTIONS →
        nextSolution envW s' = (false, s'))) :=
  ⟨rfl, rfl, root_infeasible envW smW rfl rfl⟩

/-- C7. **Fail outside a try-region degrades safely.**  With no
armed continuation (`jmpbuf_filled_ = false`) and no fail intercept,
`Solver::Fail`/`Search::JumpBack` does not jump (and a fortiori does
not crash): it returns normally after posting `MakeFalseConstraint` to
the current problem, and the next legitimate `NextSolution` then
reports infeasibility (returns false with state
`PROBLEM_INFEASIBLE`). -/
theorem fail_outside_search {Cstr : Type} (env : SearchEnv Cstr)
    (s : SolverSM Cstr) (hj : s.jmpbufFilled = false)
    (hst : s.state = SolverState.OUTSIDE_SEARCH) :
    (fail env s).1 = FailOutcome.returnedSafely ∧
    (fail env s).2.constraints = s.constraints ++ [env.falseConstraint] ∧
    (fail env s).2.fails = s.fails + 1 ∧
    (fail env s).2.events = s.events ++ [SEvent.beginFail] ∧
    (nextSolution env (fail env s).2).1 = false ∧
    (nextSolution env (fail env s).2).2.state =
      SolverState.PROBLEM_INFEASIBLE := by
  obtain ⟨st, cs, qa, ad, sc, fl, jb, ev⟩ := s
  simp only at hj hst
  subst hj
  subst hst
  have hany : (cs ++ [env.falseConstraint]).any env.failing = true := by
    rw [List.any_append]
    simp [env.falseConstraintFails]
  refine ⟨rfl, rfl, rfl, rfl, ?_, ?_⟩ <;>
    simp [fail, addConstraint, SolverSM.log, nextSolution, hany]

theorem fail_outside_search_witness :
    smW.jmpbufFilled = false ∧
    smW.state = SolverState.OUTSIDE_SEARCH ∧
    ((fail envW smW).1 = FailOutcome.returnedSafely ∧
     (fail envW smW).2.constraints = smW.constraints ++ [envW.falseConstraint] ∧
     (fail envW smW).2.fails = smW.fails + 1 ∧
     (fail envW smW).2.events = smW.events ++ [SEvent.beginFail] ∧
     (nextSolution envW (fail envW smW).2).1 = false ∧
     (nextSolution envW (fail envW smW).2).2.state =
       SolverState.PROBLEM_INFEASIBLE) :=
  ⟨rfl, rfl, fail_outside_search envW smW rfl rfl⟩

/-! ## Compressed trail refinement (C2) -/

theorem pushBack_size {V : Type} (P : TrailPacker V) (v : V) (t : CTrail V) :
    (t.pushBack P v).size = t.size + 1 := by
  unfold CTrail.pushBack
  split
  · split <;> rfl
  · rfl

theorem pushBack_blockSize {V : Type} (P : TrailPacker V) (v : V)
    (t : CTrail V) : (t.pushBack P v).blockSize = t.blockSize := by
  unfold CTrail.pushBack
  split
  · split <;> rfl
  · rfl

theorem popBack_blockSize {V : Type} (P : TrailPacker V) (t : CTrail V) :
    (t.popBack P).blockSize = t.blockSize := by
  simp only [CTrail.popBack]
  split
  · rfl
  · split
    · split
      · rfl
      · split <;> rfl
    · rfl

/-- An invariant-satisfying trail of positive size has a non-empty hot
prefix. -/
theorem data_ne_nil {V : Type} (P : TrailPacker V) (t : CTrail V)
    (hI : t.Inv P) (hsz : t.size ≠ 0) : t.data ≠ [] := by
  intro hd
  obtain ⟨hbuf, hblk⟩ := hI.2.2.2.2.2 hd
  have h5 := hI.2.2.2.2.1
  rw [CTrail.logical, hd, hbuf, hblk] at h5
  simp at h5
  exact hsz h5

theorem pushBack_logical {V : Type} (P : TrailPacker V) (v : V) (t : CTrail V) :
    (t.pushBack P v).logical P = v :: t.logical P := by
  obtain ⟨bs, blocks, bufU, buffer, data, size⟩ := t
  unfold CTrail.pushBack
  by_cases hfull : bs ≤ data.length
  · rw [if_pos hfull]
    cases bufU
    · rw [if_neg (by simp)]
      simp [CTrail.logical]
    · rw [if_pos rfl]
      simp [CTrail.logical, P.unpack_pack]
  · rw [if_neg hfull]
    simp [CTrail.logical]

theorem pushBack_Inv {V : Type} (P : TrailPacker V) (v : V) (t : CTrail V)
    (hbs : 1 ≤ t.blockSize) (hI : t.Inv P) : (t.pushBack P v).Inv P := by
  obtain ⟨h1, h2, h3, h4, h5, h6⟩ := hI
  obtain ⟨bs, blocks, bufU, buffer, data, size⟩ := t
  simp only at h1 h2 h3 h4 h5 h6 hbs
  by_cases hfull : bs ≤ data.length
  · cases bufU
    · have hres : CTrail.pushBack P v ⟨bs, blocks, false, buffer, data, size⟩ =
          ⟨bs, blocks, true, data, [v], size + 1⟩ := by
        simp [CTrail.pushBack, hfull]
      rw [hres]
      refine ⟨by simpa using hbs, fun _ => by simp only; omega,
        fun hc => absurd hc (by simp), h4, ?_, fun hc => absurd hc (by simp)⟩
      simp [CTrail.logical] at h5 ⊢
      omega
    · have hres : CTrail.pushBack P v ⟨bs, blocks, true, buffer, data, size⟩ =
          ⟨bs, P.pack buffer :: blocks, true, data, [v], size + 1⟩ := by
        simp [CTrail.pushBack, hfull]
      rw [hres]
      refine ⟨by simpa using hbs, fun _ => by simp only; omega,
        fun hc => absurd hc (by simp), ?_, ?_, fun hc => absurd hc (by simp)⟩
      · intro b hb
        rcases List.mem_cons.mp hb with rfl | hb'
        · exact ⟨buffer, h2 rfl, rfl⟩
        · exact h4 b hb'
      · simp [CTrail.logical, P.unpack_pack] at h5 ⊢
        omega
  · have hres : CTrail.pushBack P v ⟨bs, blocks, bufU, buffer, data, size⟩ =
        ⟨bs, blocks, bufU, buffer, v :: data, size + 1⟩ := by
      simp [CTrail.pushBack, hfull]
    rw [hres]
    refine ⟨by simp only [List.length_cons]; omega, h2, h3, h4, ?_,
      fun hc => absurd hc (by simp)⟩
    simp [CTrail.logical] at h5 ⊢
    omega

theorem popBack_size {V : Type} (P : TrailPacker V) (t : CTrail V) :
    (t.popBack P).size = t.size - 1 := by
  simp only [CTrail.popBack]
  split
  · rename_i h
    omega
  · split
    · split
      · rfl
      · split <;> rfl
    · rfl

theorem popBack_logical {V : Type} (P : TrailPacker V) (t : CTrail V)
    (hI : t.Inv P) : (t.popBack P).logical P = (t.logical P).tail := by
  by_cases hsz : t.size = 0
  · have h5 := hI.2.2.2.2.1
    rw [hsz] at h5
    have hlog : t.logical P = [] := List.length_eq_zero.mp h5.symm
    have hres : t.popBack P = t := by
      simp [CTrail.popBack, hsz]
    rw [hres, hlog]
    rfl
  · have hdata := data_ne_nil P t hI hsz
    obtain ⟨h1, h2, h3, h4, h5, h6⟩ := hI
    obtain ⟨bs, blocks, bufU, buffer, data, size⟩ := t
    simp only at h1 h2 h3 h4 h5 h6 hdata hsz
    rcases data with _ | ⟨x, dtl⟩
    · exact absurd rfl hdata
    · rcases dtl with _ | ⟨y, dtl'⟩
      · cases bufU
        · rcases blocks with _ | ⟨b, rest⟩
          · have hres : CTrail.popBack P ⟨bs, [], false, buffer, [x], size⟩ =
                ⟨bs, [], false, buffer, [], size - 1⟩ := by
              simp [CTrail.popBack, hsz]
            rw [hres]
            simp [CTrail.logical]
          · have hres : CTrail.popBack P ⟨bs, b :: rest, false, buffer, [x], size⟩ =
                ⟨bs, rest, false, buffer, P.unpack b, size - 1⟩ := by
              simp [CTrail.popBack, hsz]
            rw [hres]
            simp [CTrail.logical]
        · have hres : CTrail.popBack P ⟨bs, blocks, true, buffer, [x], size⟩ =
              ⟨bs, blocks, false, [], buffer, size - 1⟩ := by
            simp [CTrail.popBack, hsz]
          rw [hres]
          simp [CTrail.logical]
      · have hres : CTrail.popBack P ⟨bs, blocks, bufU, buffer, x :: y :: dtl', size⟩ =
            ⟨bs, blocks, bufU, buffer, y :: dtl', size - 1⟩ := by
          simp [CTrail.popBack, hsz]
        rw [hres]
        simp [CTrail.logical]

theorem popBack_Inv {V : Type} (P : TrailPacker V) (t : CTrail V)
    (hbs : 1 ≤ t.blockSize) (hI : t.Inv P) : (t.popBack P).Inv P := by
  by_cases hsz : t.size = 0
  · have hres : t.popBack P = t := by
      simp [CTrail.popBack, hsz]
    rw [hres]
    exact hI
  · have hdata := data_ne_nil P t hI hsz
    obtain ⟨h1, h2, h3, h4, h5, h6⟩ := hI
    obtain ⟨bs, blocks, bufU, buffer, data, size⟩ := t
    simp only at h1 h2 h3 h4 h5 h6 hdata hsz hbs
    rcases data with _ | ⟨x, dtl⟩
    · exact absurd rfl hdata
    · rcases dtl with _ | ⟨y, dtl'⟩
      · cases bufU
        · rcases blocks with _ | ⟨b, rest⟩
          · have hres : CTrail.popBack P ⟨bs, [], false, buffer, [x], size⟩ =
                ⟨bs, [], false, buffer, [], size - 1⟩ := by
              simp [CTrail.popBack, hsz]
            rw [hres]
            refine ⟨by simp, fun hc => absurd hc (by simp), h3, by simp, ?_,
              fun _ => ⟨rfl, rfl⟩⟩
            simp [CTrail.logical] at h5 ⊢
            omega
          · obtain ⟨orig, horig, rfl⟩ := h4 b (List.mem_cons_self b rest)
            have hres : CTrail.popBack P
                ⟨bs, P.pack orig :: rest, false, buffer, [x], size⟩ =
                ⟨bs, rest, false, buffer, P.unpack (P.pack orig), size - 1⟩ := by
              simp [CTrail.popBack, hsz]
            rw [hres]
            refine ⟨?_, fun hc => absurd hc (by simp), h3,
              fun b' hb' => h4 b' (List.mem_cons_of_mem _ hb'), ?_, ?_⟩
            · rw [P.unpack_pack]
              simp only [horig]
              exact Nat.le_refl _
            · simp [CTrail.logical, P.unpack_pack] at h5 ⊢
              omega
            · rw [P.unpack_pack]
              intro habs
              exfalso
              have hco : orig = [] := habs
              rw [hco] at horig
              simp at horig
              omega
        · have hres : CTrail.popBack P ⟨bs, blocks, true, buffer, [x], size⟩ =
              ⟨bs, blocks, false, [], buffer, size - 1⟩ := by
            simp [CTrail.popBack, hsz]
          rw [hres]
          refine ⟨?_, fun hc => absurd hc (by simp), fun _ => rfl, h4, ?_, ?_⟩
          · rw [h2 rfl]
          · simp [CTrail.logical] at h5 ⊢
            omega
          · intro habs
            exfalso
            have hco : buffer = [] := habs
            have hlen := h2 rfl
            rw [hco] at hlen
            simp at hlen
            omega
      · have hres : CTrail.popBack P ⟨bs, blocks, bufU, buffer, x :: y :: dtl', size⟩ =
            ⟨bs, blocks, bufU, buffer, y :: dtl', size - 1⟩ := by
          simp [CTrail.popBack, hsz]
        rw [hres]
        refine ⟨?_, h2, h3, h4, ?_, fun hc => absurd hc (by simp)⟩
        · simp only [List.length_cons] at h1 ⊢
          omega
        · simp [CTrail.logical] at h5 ⊢
          omega

theorem back_logical {V : Type} (P : TrailPacker V) (t : CTrail V)
    (hI : t.Inv P) : t.back? = (t.logical P).head? := by
  rcases hd : t.data with _ | ⟨x, dtl⟩
  · obtain ⟨hbuf, hblk⟩ := hI.2.2.2.2.2 hd
    unfold CTrail.back? CTrail.logical
    rw [hd, hbuf, hblk]
    simp
  · unfold CTrail.back? CTrail.logical
    rw [hd]
    simp

theorem init_Inv {V : Type} (bs : Nat) (P : TrailPacker V) :
    (CTrail.init V bs).Inv P := by
  refine ⟨by simp [CTrail.init], fun hc => absurd hc (by simp [CTrail.init]),
    fun _ => rfl, by simp [CTrail.init], rfl, fun _ => ⟨rfl, rfl⟩⟩

theorem step_blockSize {V : Type} (P : TrailPacker V) (op : CTrailOp V)
    (t : CTrail V) : (t.step P op).blockSize = t.blockSize := by
  cases op
  · exact pushBack_blockSize P _ t
  · exact popBack_blockSize P t

theorem step_logical {V : Type} (P : TrailPacker V) (op : CTrailOp V)
    (t : CTrail V) (hI : t.Inv P) :
    (t.step P op).logical P = specStep (t.logical P) op := by
  cases op
  · exact pushBack_logical P _ t
  · exact popBack_logical P t hI

theorem step_Inv {V : Type} (P : TrailPacker V) (op : CTrailOp V)
    (t : CTrail V) (hbs : 1 ≤ t.blockSize) (hI : t.Inv P) :
    (t.step P op).Inv P := by
  cases op
  · exact pushBack_Inv P _ t hbs hI
  · exact popBack_Inv P t hbs hI

/-- The compressed trail refines the plain stack: for every packer with
the round-trip property and every positive block size, the trail's
observations and logical content track the specification stack. -/
theorem runTrace_correct {V : Type} (P : TrailPacker V)
    (ops : List (CTrailOp V)) :
    ∀ t : CTrail V, 1 ≤ t.blockSize → t.Inv P →
      t.runTrace P ops = specTrace (t.logical P) ops ∧
      (t.runFinal P ops).logical P = ops.foldl specStep (t.logical P) ∧
      (t.runFinal P ops).Inv P := by
  induction ops with
  | nil => exact fun t _ hI => ⟨rfl, rfl, hI⟩
  | cons op rest ih =>
      intro t hbs hI
      have hlog := step_logical P op t hI
      have hinv := step_Inv P op t hbs hI
      have hbs' : 1 ≤ (t.step P op).blockSize := by
        rw [step_blockSize]
        exact hbs
      obtain ⟨ht, hf, hi⟩ := ih (t.step P op) hbs' hinv
      refine ⟨?_, ?_, hi⟩
      · rw [CTrail.runTrace, specTrace]
        rw [ht, hlog]
        have hback : (t.step P op).back? = (specStep (t.logical P) op).head? := by
          rw [back_logical P _ hinv, hlog]
        have hsize : (t.step P op).size = (specStep (t.logical P) op).length := by
          rw [hinv.2.2.2.2.1, hlog]
        rw [hback, hsize]
      · rw [CTrail.runFinal, List.foldl_cons, hf, hlog]

/-- C2. **Compressed trail equivalence.**  For every finite sequence of
`PushBack`/`PopBack` operations, the observations — `Back()` (where
legal) and `size()` after every step, and the final `size()` — are
identical for any two trail packers satisfying the pack/unpack
round-trip (in particular `NO_COMPRESSION` and `COMPRESS_WITH_ZLIB`)
and any positive block sizes: the compression mode affects only the
internal representation, never the logical contents. -/
theorem compressed_trail_equiv (V : Type) (P1 P2 : TrailPacker V)
    (b1 b2 : Nat) (h1 : 1 ≤ b1) (h2 : 1 ≤ b2) (ops : List (CTrailOp V)) :
    (CTrail.init V b1).runTrace P1 ops = (CTrail.init V b2).runTrace P2 ops ∧
    ((CTrail.init V b1).runFinal P1 ops).size =
      ((CTrail.init V b2).runFinal P2 ops).size := by
  obtain ⟨ht1, hf1, hi1⟩ :=
    runTrace_correct P1 ops (CTrail.init V b1) h1 (init_Inv b1 P1)
  obtain ⟨ht2, hf2, hi2⟩ :=
    runTrace_correct P2 ops (CTrail.init V b2) h2 (init_Inv b2 P2)
  have hL1 : (CTrail.init V b1).logical P1 = [] := rfl
  have hL2 : (CTrail.init V b2).logical P2 = [] := rfl
  constructor
  · rw [ht1, ht2, hL1, hL2]
  · rw [hi1.2.2.2.2.1, hi2.2.2.2.2.1, hf1, hf2, hL1, hL2]

def opsC2 : List (CTrailOp Nat) :=
  [CTrailOp.push 1, CTrailOp.push 2, CTrailOp.push 3, CTrailOp.pop,
   CTrailOp.push 4, CTrailOp.push 5, CTrailOp.pop, CTrailOp.pop,
   CTrailOp.pop, CTrailOp.pop, CTrailOp.pop]

theorem compressed_trail_equiv_witness :
    1 ≤ 1 ∧ 1 ≤ 2 ∧
    ((CTrail.init Nat 1).runTrace (noCompressionPacker Nat) opsC2 =
       (CTrail.init Nat 2).runTrace (reversePacker Nat) opsC2 ∧
     ((CTrail.init Nat 1).runFinal (noCompressionPacker Nat) opsC2).size =
       ((CTrail.init Nat 2).runFinal (reversePacker Nat) opsC2).size) :=
  ⟨by decide, by decide,
   compressed_trail_equiv Nat (noCompressionPacker Nat) (reversePacker Nat)
     1 2 (by decide) (by decide) opsC2⟩

end CpSolver
